import Mathlib

/-!
Verification development for the `humin-ragas-evaluator` repository.

Shallow embedding conventions:
* Python strings are `List Char`; Python float score arithmetic is modelled
  exactly by `ℚ` (every score produced by the evaluator is a small decimal),
  except the TF-IDF cosine similarity, which is modelled in exact real
  arithmetic (`ℝ`).
* Character-level operations (`str.upper`, `str.lower`, `\s`, `\w`) are
  modelled on the ASCII fragment, matching CPython behaviour on ASCII input.
* External services (the chroma vector index, the ollama generation endpoint,
  the SQL database, the RAGAS framework) are modelled as explicit inputs: an
  environment value records what the external call returned (or that it
  raised).
-/

namespace RagEval

/-- Models Python `str.upper` on a single character (ASCII fragment):
lowercase ASCII letters are shifted down by 32, everything else is fixed. -/
def upperChar (c : Char) : Char :=
  if 97 ≤ c.toNat ∧ c.toNat ≤ 122 then Char.ofNat (c.toNat - 32) else c

/-- Models Python `str.upper` on a whole string. -/
def upperStr (l : List Char) : List Char := l.map upperChar

/-- Models `re.sub(r'\s+', ' ', s)`: every maximal run of whitespace is
replaced by a single space. -/
def collapseWs : List Char → List Char
  | [] => []
  | [c] => if c.isWhitespace then [' '] else [c]
  | a :: b :: rest =>
    if a.isWhitespace then
      if b.isWhitespace then collapseWs (b :: rest)
      else ' ' :: collapseWs (b :: rest)
    else a :: collapseWs (b :: rest)

/-- Drops a trailing whitespace run (the right half of Python `str.strip`). -/
def dropTrailWs : List Char → List Char
  | [] => []
  | c :: rest =>
    if dropTrailWs rest = [] ∧ c.isWhitespace then [] else c :: dropTrailWs rest

/-- Models Python `str.strip()`: drop leading and trailing whitespace. -/
def stripChars (l : List Char) : List Char :=
  dropTrailWs (l.dropWhile Char.isWhitespace)

/-- Models the Python substring test `pat in s`. -/
def containsSeq (pat : List Char) : List Char → Bool
  | [] => decide (pat = [])
  | c :: rest => pat.isPrefixOf (c :: rest) || containsSeq pat rest

/-- Index of the first occurrence of `pat` in `l`, if any. -/
def findSeqIdx (pat : List Char) : List Char → Option Nat
  | [] => if pat = [] then some 0 else none
  | c :: rest =>
    if pat.isPrefixOf (c :: rest) then some 0
    else (findSeqIdx pat rest).map (· + 1)

/-- Models Python `str.find`: first index of `pat`, or `-1` when absent. -/
def findSeqZ (pat l : List Char) : Int :=
  match findSeqIdx pat l with
  | some n => (n : Int)
  | none => -1

/-- Embedding of `Text2SQLEvaluator._evaluate_syntax`: the heuristic syntax
score of a SQL string, with the source's early-return priority chain. -/
def evaluateSyntax (sql : List Char) : ℚ :=
  if sql = [] ∨ stripChars sql = [] then 0
  else
    let up := upperStr sql
    if !(containsSeq "SELECT".toList up && containsSeq "FROM".toList up) then 0
    else if up.count '(' ≠ up.count ')' then 1/2
    else if findSeqZ "SELECT".toList up > findSeqZ "FROM".toList up then 3/10
    else 1

/-- A string whose strip is empty consists of whitespace only. -/
theorem dropTrailWs_eq_nil (l : List Char) (h : dropTrailWs l = []) :
    ∀ c ∈ l, c.isWhitespace := by
  induction l with
  | nil => intro c hc; cases hc
  | cons a rest ih =>
    intro c hc
    unfold dropTrailWs at h
    by_cases hr : dropTrailWs rest = [] ∧ a.isWhitespace
    · rcases List.mem_cons.mp hc with rfl | hc
      · exact hr.2
      · exact ih hr.1 c hc
    · rw [if_neg hr] at h
      cases h

theorem stripChars_eq_nil (l : List Char) (h : stripChars l = []) :
    ∀ c ∈ l, c.isWhitespace := by
  intro c hc
  unfold stripChars at h
  have hsplit := List.takeWhile_append_dropWhile (p := Char.isWhitespace) (l := l)
  rw [← hsplit] at hc
  rcases List.mem_append.mp hc with hc | hc
  · exact List.mem_takeWhile_imp hc
  · exact dropTrailWs_eq_nil _ h c hc

/-- The head character of a non-empty pattern occurs in any string that
contains the pattern. -/
theorem containsSeq_head_mem {p : Char} {ps l : List Char}
    (h : containsSeq (p :: ps) l = true) : p ∈ l := by
  induction l with
  | nil => simp [containsSeq] at h
  | cons c rest ih =>
    unfold containsSeq at h
    rcases Bool.or_eq_true_iff.mp h with h | h
    · have := List.isPrefixOf_iff_prefix.mp h
      rcases this with ⟨t, ht⟩
      rw [← ht]; simp
    · exact List.mem_cons_of_mem _ (ih h)

/-- Whitespace characters are fixed points of `upperChar`. -/
theorem upperChar_ws {c : Char} (h : c.isWhitespace) : upperChar c = c := by
  have h' := h
  simp only [Char.isWhitespace, Bool.or_eq_true_iff, decide_eq_true_eq] at h'
  rcases h' with ((h' | h') | h') | h' <;> subst h' <;> decide

/-- A character whose uppercase form is the letter S is not whitespace. -/
theorem not_ws_of_upperChar_S {c : Char} (h : upperChar c = 'S') :
    ¬ c.isWhitespace = true := by
  intro hws
  rw [upperChar_ws hws] at h
  have hws' := hws
  simp only [Char.isWhitespace, Bool.or_eq_true_iff, decide_eq_true_eq] at hws'
  rcases hws' with ((h' | h') | h') | h' <;> subst h' <;> simp at h

/-- If the uppercased string contains a SELECT keyword then the original
string has a non-whitespace character, hence a non-empty strip. -/
theorem stripChars_ne_nil_of_select {sql : List Char}
    (h : containsSeq "SELECT".toList (upperStr sql) = true) :
    stripChars sql ≠ [] := by
  intro hnil
  have hs : 'S' ∈ upperStr sql := containsSeq_head_mem h
  rcases List.mem_map.mp hs with ⟨c, hc, hup⟩
  exact not_ws_of_upperChar_S hup (stripChars_eq_nil _ hnil c hc)

/-- The SELECT+FROM presence check of the syntax scorer. -/
def hasSelectFrom (sql : List Char) : Prop :=
  containsSeq "SELECT".toList (upperStr sql) = true ∧
  containsSeq "FROM".toList (upperStr sql) = true

/-- The parenthesis-balance check of the syntax scorer. -/
def parenBalanced (sql : List Char) : Prop :=
  (upperStr sql).count '(' = (upperStr sql).count ')'

/-- The keyword-order check of the syntax scorer: SELECT occurs positionally
after FROM. -/
def selectAfterFrom (sql : List Char) : Prop :=
  findSeqZ "SELECT".toList (upperStr sql) > findSeqZ "FROM".toList (upperStr sql)

instance (sql : List Char) : Decidable (hasSelectFrom sql) := by
  unfold hasSelectFrom; infer_instance

instance (sql : List Char) : Decidable (parenBalanced sql) := by
  unfold parenBalanced; infer_instance

instance (sql : List Char) : Decidable (selectAfterFrom sql) := by
  unfold selectAfterFrom; infer_instance

/-- Normal form of the syntax scorer: a priority chain over the three named
checks (the whitespace-only case is subsumed by the SELECT+FROM check). -/
theorem evaluateSyntax_eq (sql : List Char) :
    evaluateSyntax sql =
      if ¬ hasSelectFrom sql then 0
      else if ¬ parenBalanced sql then 1/2
      else if selectAfterFrom sql then 3/10 else 1 := by
  by_cases hSF : hasSelectFrom sql
  · have h0 : stripChars sql ≠ [] := stripChars_ne_nil_of_select hSF.1
    have hsql : ¬ (sql = [] ∨ stripChars sql = []) := by
      rintro (rfl | h)
      · exact h0 rfl
      · exact h0 h
    have hS : containsSeq "SELECT".toList (upperStr sql) = true := hSF.1
    have hF : containsSeq "FROM".toList (upperStr sql) = true := hSF.2
    rw [evaluateSyntax, if_neg hsql, if_neg (by rw [hS, hF]; simp),
      if_neg (not_not_intro hSF)]
    by_cases hP : parenBalanced sql
    · have hP' : (upperStr sql).count '(' = (upperStr sql).count ')' := hP
      rw [if_neg (not_not_intro hP'), if_neg (not_not_intro hP)]
      have : Decidable (selectAfterFrom sql) := by unfold selectAfterFrom; infer_instance
      by_cases hO : selectAfterFrom sql
      · have hO' : findSeqZ "SELECT".toList (upperStr sql) >
          findSeqZ "FROM".toList (upperStr sql) := hO
        rw [if_pos hO', if_pos hO]
      · have hO' : ¬ (findSeqZ "SELECT".toList (upperStr sql) >
          findSeqZ "FROM".toList (upperStr sql)) := hO
        rw [if_neg hO', if_neg hO]
    · have hP' : ¬ ((upperStr sql).count '(' = (upperStr sql).count ')') := hP
      rw [if_pos hP', if_pos hP]
  · rw [if_pos hSF]
    rw [evaluateSyntax]
    by_cases hsql : sql = [] ∨ stripChars sql = []
    · rw [if_pos hsql]
    · rw [if_neg hsql, if_pos]
      have : ¬ (containsSeq "SELECT".toList (upperStr sql) = true ∧
          containsSeq "FROM".toList (upperStr sql) = true) := hSF
      rcases not_and_or.mp this with h | h <;>
        simp [Bool.not_eq_true] at h <;> simp [h]

theorem evaluateSyntax_characterization (sql : List Char) :
    (evaluateSyntax sql = 0 ↔ (stripChars sql = [] ∨ ¬ hasSelectFrom sql)) ∧
    (evaluateSyntax sql = 1/2 ↔ (hasSelectFrom sql ∧ ¬ parenBalanced sql)) ∧
    (evaluateSyntax sql = 3/10 ↔
      (hasSelectFrom sql ∧ parenBalanced sql ∧ selectAfterFrom sql)) ∧
    (evaluateSyntax sql = 1 ↔
      (hasSelectFrom sql ∧ parenBalanced sql ∧ ¬ selectAfterFrom sql)) := by
  rw [evaluateSyntax_eq]
  by_cases hSF : hasSelectFrom sql
  · have h0 : stripChars sql ≠ [] := stripChars_ne_nil_of_select hSF.1
    rw [if_neg (not_not_intro hSF)]
    by_cases hP : parenBalanced sql
    · rw [if_neg (not_not_intro hP)]
      by_cases hO : selectAfterFrom sql
      · rw [if_pos hO]
        refine ⟨?_, ?_, ?_, ?_⟩
        · constructor
          · intro h; exact absurd h (by norm_num)
          · rintro (h | h)
            · exact absurd h h0
            · exact absurd hSF h
        · exact ⟨fun h => absurd h (by norm_num), fun h => absurd hP h.2⟩
        · exact ⟨fun _ => ⟨hSF, hP, hO⟩, fun _ => rfl⟩
        · exact ⟨fun h => absurd h (by norm_num), fun h => absurd hO h.2.2⟩
      · rw [if_neg hO]
        refine ⟨?_, ?_, ?_, ?_⟩
        · constructor
          · intro h; exact absurd h (by norm_num)
          · rintro (h | h)
            · exact absurd h h0
            · exact absurd hSF h
        · exact ⟨fun h => absurd h (by norm_num), fun h => absurd hP h.2⟩
        · exact ⟨fun h => absurd h (by norm_num), fun h => absurd h.2.2 hO⟩
        · exact ⟨fun _ => ⟨hSF, hP, hO⟩, fun _ => rfl⟩
    · rw [if_pos hP]
      refine ⟨?_, ?_, ?_, ?_⟩
      · constructor
        · intro h; exact absurd h (by norm_num)
        · rintro (h | h)
          · exact absurd h h0
          · exact absurd hSF h
      · exact ⟨fun _ => ⟨hSF, hP⟩, fun _ => rfl⟩
      · exact ⟨fun h => absurd h (by norm_num), fun h => absurd h.2.1 hP⟩
      · exact ⟨fun h => absurd h (by norm_num), fun h => absurd h.2.1 hP⟩
  · rw [if_pos hSF]
    refine ⟨?_, ?_, ?_, ?_⟩
    · exact ⟨fun _ => Or.inr hSF, fun _ => rfl⟩
    · exact ⟨fun h => absurd h (by norm_num), fun h => absurd h.1 hSF⟩
    · exact ⟨fun h => absurd h (by norm_num), fun h => absurd h.1 hSF⟩
    · exact ⟨fun h => absurd h (by norm_num), fun h => absurd h.1 hSF⟩

/-- Tests for the quote characters removed by the normalizer of
`_evaluate_exact_match` (`re.sub(r'["\x27\x60]', '', sql)`): double quote,
single quote (codepoint 39) and backtick (codepoint 96). -/
def isQuoteChar (c : Char) : Bool :=
  c == '"' || c == Char.ofNat 39 || c == Char.ofNat 96

/-- Removes the quote characters (second substitution of `normalize_sql`). -/
def removeQuotes (l : List Char) : List Char :=
  l.filter (fun c => !(isQuoteChar c))

/-- Scans for the first occurrence of a closing `*\x2f` and returns the
suffix after it (helper for the non-greedy block-comment removal). -/
def dropToClose : List Char → Option (List Char)
  | '*' :: '/' :: rest => some rest
  | _ :: rest => dropToClose rest
  | [] => none

/-- Fuel-indexed scanner modelling `re.sub` with the non-greedy pattern that
removes block comments: at each position, a comment opener followed by a
closer is removed together with the shortest body; otherwise one character is
emitted. The fuel is an upper bound on the number of scanning steps; the
wrapper below supplies `l.length`, which always suffices because every step
consumes at least one input character. -/
def removeCommentsF : ℕ → List Char → List Char
  | 0, l => l
  | _ + 1, [] => []
  | fuel + 1, c :: rest =>
    if c = '/' ∧ rest.head? = some '*' then
      match dropToClose rest.tail with
      | some suffix => removeCommentsF fuel suffix
      | none => c :: removeCommentsF fuel rest
    else c :: removeCommentsF fuel rest

/-- Third substitution of `normalize_sql`: remove `/*...*/` block comments. -/
def removeComments (l : List Char) : List Char := removeCommentsF l.length l

/-- Embedding of the `normalize_sql` helper inside
`Text2SQLEvaluator._evaluate_exact_match`: collapse whitespace runs,
uppercase, strip, remove quote characters, remove block comments —
in the source's order. -/
def normalizeSql (sql : List Char) : List Char :=
  removeComments (removeQuotes (stripChars (upperStr (collapseWs sql))))

/-- Embedding of `Text2SQLEvaluator._evaluate_exact_match`. -/
def evaluateExactMatch (generatedSql groundTruthSql : List Char) : ℚ :=
  if normalizeSql generatedSql = normalizeSql groundTruthSql then 1 else 0

/-- C1: the syntax scorer `_evaluate_syntax` returns exactly one of
{0.0, 0.3, 0.5, 1.0}, chosen by the source's fixed priority order with
early return: 0.0 if the string is empty (or whitespace) or lacks
SELECT+FROM, else 0.5 if the counts of opening and closing parentheses
differ, else 0.3 if SELECT occurs positionally after FROM, else 1.0; with
the four concrete spec examples. -/
theorem c1_syntax_scorer :
    (∀ sql : List Char,
      evaluateSyntax sql = 0 ∨ evaluateSyntax sql = 3/10 ∨
      evaluateSyntax sql = 1/2 ∨ evaluateSyntax sql = 1) ∧
    (∀ sql : List Char,
      (evaluateSyntax sql = 0 ↔ (stripChars sql = [] ∨ ¬ hasSelectFrom sql)) ∧
      (evaluateSyntax sql = 1/2 ↔ (hasSelectFrom sql ∧ ¬ parenBalanced sql)) ∧
      (evaluateSyntax sql = 3/10 ↔
        (hasSelectFrom sql ∧ parenBalanced sql ∧ selectAfterFrom sql)) ∧
      (evaluateSyntax sql = 1 ↔
        (hasSelectFrom sql ∧ parenBalanced sql ∧ ¬ selectAfterFrom sql))) ∧
    evaluateSyntax "SELECT a FROM t".toList = 1 ∧
    evaluateSyntax "".toList = 0 ∧
    evaluateSyntax "SELECT a FROM t WHERE (x=1".toList = 1/2 ∧
    evaluateSyntax "FROM t SELECT a".toList = 3/10 := by
  refine ⟨?_, evaluateSyntax_characterization, ?_, ?_, ?_, ?_⟩
  · intro sql
    rw [evaluateSyntax_eq]
    split_ifs <;> norm_num
  · exact ((evaluateSyntax_characterization _).2.2.2).mpr (by decide)
  · exact (evaluateSyntax_characterization _).1.mpr (Or.inl (by decide))
  · exact ((evaluateSyntax_characterization _).2.1).mpr (by decide)
  · exact ((evaluateSyntax_characterization _).2.2.1).mpr (by decide)

/-- Concrete input refuting idempotence of the normalizer: a single quote
flanked by spaces. Removing the quote merges the two whitespace runs, so a
second normalization pass collapses what the first one left behind. -/
def exC2 : List Char := ['a', ' ', Char.ofNat 39, ' ', 'b']

/-- C2 counterexample: the exact-match normalization is not idempotent. -/
theorem c2_counterexample :
    normalizeSql (normalizeSql exC2) ≠ normalizeSql exC2 := by decide

/-- Whitespace characters have code points in {9, 10, 13, 32}. -/
theorem ws_toNat {c : Char} (h : c.isWhitespace = true) :
    c.toNat = 32 ∨ c.toNat = 9 ∨ c.toNat = 13 ∨ c.toNat = 10 := by
  simp only [Char.isWhitespace, Bool.or_eq_true_iff, decide_eq_true_eq] at h
  rcases h with ((h | h) | h) | h <;> subst h <;> simp

/-- Quote characters have code points in {34, 39, 96}. -/
theorem quote_toNat {c : Char} (h : isQuoteChar c = true) :
    c.toNat = 34 ∨ c.toNat = 39 ∨ c.toNat = 96 := by
  simp only [isQuoteChar, Bool.or_eq_true_iff, beq_iff_eq] at h
  rcases h with (h | h) | h <;> subst h <;> simp

/-- In-range unfolding of `upperChar`. -/
theorem upperChar_of_range {c : Char} (h : 97 ≤ c.toNat ∧ c.toNat ≤ 122) :
    upperChar c = Char.ofNat (c.toNat - 32) := by
  unfold upperChar; rw [if_pos h]

/-- Out-of-range unfolding of `upperChar`. -/
theorem upperChar_of_not_range {c : Char}
    (h : ¬(97 ≤ c.toNat ∧ c.toNat ≤ 122)) : upperChar c = c := by
  unfold upperChar; rw [if_neg h]

/-- Facts about the uppercase ASCII letters produced by `upperChar`. -/
theorem ofNat_upper_facts (n : ℕ) (h1 : 65 ≤ n) (h2 : n ≤ 90) :
    (Char.ofNat n).toNat = n ∧ (Char.ofNat n).isWhitespace = false ∧
    isQuoteChar (Char.ofNat n) = false ∧
    Char.ofNat n ≠ '/' ∧ Char.ofNat n ≠ '*' := by
  interval_cases n <;> exact ⟨by decide, by decide, by decide, by decide, by decide⟩

theorem upperChar_toNat_of_range {c : Char}
    (h : 97 ≤ c.toNat ∧ c.toNat ≤ 122) :
    (upperChar c).toNat = c.toNat - 32 := by
  rw [upperChar_of_range h]
  exact (ofNat_upper_facts (c.toNat - 32) (by omega) (by omega)).1

theorem upperChar_isWhitespace (c : Char) :
    (upperChar c).isWhitespace = c.isWhitespace := by
  by_cases h : 97 ≤ c.toNat ∧ c.toNat ≤ 122
  · rw [upperChar_of_range h]
    rw [(ofNat_upper_facts (c.toNat - 32) (by omega) (by omega)).2.1]
    by_contra hne
    have hws : c.isWhitespace = true := by
      cases hc : c.isWhitespace
      · exact absurd hc.symm hne
      · rfl
    rcases ws_toNat hws with hv | hv | hv | hv <;> omega
  · rw [upperChar_of_not_range h]

theorem upperChar_idem (c : Char) : upperChar (upperChar c) = upperChar c := by
  by_cases h : 97 ≤ c.toNat ∧ c.toNat ≤ 122
  · have ht := upperChar_toNat_of_range h
    exact upperChar_of_not_range (by omega)
  · rw [upperChar_of_not_range h, upperChar_of_not_range h]

theorem upperChar_quote (c : Char) :
    isQuoteChar (upperChar c) = isQuoteChar c := by
  by_cases h : 97 ≤ c.toNat ∧ c.toNat ≤ 122
  · rw [upperChar_of_range h]
    rw [(ofNat_upper_facts (c.toNat - 32) (by omega) (by omega)).2.2.1]
    by_contra hne
    have hq : isQuoteChar c = true := by
      cases hc : isQuoteChar c
      · exact absurd hc.symm hne
      · rfl
    rcases quote_toNat hq with hv | hv | hv <;> omega
  · rw [upperChar_of_not_range h]

theorem upperChar_eq_slash {c : Char} (h : upperChar c = '/') : c = '/' := by
  by_cases hr : 97 ≤ c.toNat ∧ c.toNat ≤ 122
  · rw [upperChar_of_range hr] at h
    exact absurd h (ofNat_upper_facts (c.toNat - 32) (by omega) (by omega)).2.2.2.1
  · rwa [upperChar_of_not_range hr] at h

theorem upperChar_eq_star {c : Char} (h : upperChar c = '*') : c = '*' := by
  by_cases hr : 97 ≤ c.toNat ∧ c.toNat ≤ 122
  · rw [upperChar_of_range hr] at h
    exact absurd h (ofNat_upper_facts (c.toNat - 32) (by omega) (by omega)).2.2.2.2
  · rwa [upperChar_of_not_range hr] at h

/-- Every whitespace character of the string is a plain space. -/
def wsOnlySpace (l : List Char) : Bool :=
  l.all (fun c => !c.isWhitespace || c == ' ')

/-- Whether the string starts with a whitespace character. -/
def headIsWs : List Char → Bool
  | [] => false
  | c :: _ => c.isWhitespace

/-- No two adjacent characters are both whitespace. -/
def noAdjWs : List Char → Bool
  | a :: b :: rest => (!(a.isWhitespace && b.isWhitespace)) && noAdjWs (b :: rest)
  | _ => true

theorem collapseWs_nil : collapseWs [] = [] := rfl

theorem collapseWs_single (c : Char) :
    collapseWs [c] = if c.isWhitespace then [' '] else [c] := rfl

theorem collapseWs_cons2 (a b : Char) (rest : List Char) :
    collapseWs (a :: b :: rest) =
      if a.isWhitespace then
        (if b.isWhitespace then collapseWs (b :: rest)
         else ' ' :: collapseWs (b :: rest))
      else a :: collapseWs (b :: rest) := rfl

theorem noAdjWs_cons (c : Char) (l : List Char) :
    noAdjWs (c :: l) = ((!(c.isWhitespace && headIsWs l)) && noAdjWs l) := by
  cases l <;> simp [noAdjWs, headIsWs]

theorem noAdjWs_tail {c : Char} {l : List Char}
    (h : noAdjWs (c :: l) = true) : noAdjWs l = true := by
  rw [noAdjWs_cons] at h
  exact (Bool.and_eq_true_iff.mp h).2

theorem collapseWs_headIsWs (l : List Char) :
    headIsWs (collapseWs l) = headIsWs l := by
  induction l using collapseWs.induct with
  | case1 => rfl
  | case2 c h => rw [collapseWs_single, if_pos h]; simp [headIsWs, h]
  | case3 c h =>
    rw [collapseWs_single, if_neg h]
  | case4 a b rest ha hb ih =>
    rw [collapseWs_cons2, if_pos ha, if_pos hb, ih]
    simp [headIsWs, ha, hb]
  | case5 a b rest ha hb ih =>
    rw [collapseWs_cons2, if_pos ha, if_neg hb]
    simp [headIsWs, ha]
  | case6 a b rest ha ih =>
    rw [collapseWs_cons2, if_neg ha]; rfl

theorem collapseWs_wsOnly (l : List Char) :
    wsOnlySpace (collapseWs l) = true := by
  induction l using collapseWs.induct with
  | case1 => rfl
  | case2 c h => rw [collapseWs_single, if_pos h]; rfl
  | case3 c h =>
    rw [collapseWs_single, if_neg h]; simp [wsOnlySpace, h]
  | case4 a b rest ha hb ih =>
    rwa [collapseWs_cons2, if_pos ha, if_pos hb]
  | case5 a b rest ha hb ih =>
    rw [collapseWs_cons2, if_pos ha, if_neg hb]
    simp only [wsOnlySpace, List.all_cons] at ih ⊢
    simp [ih]
  | case6 a b rest ha ih =>
    rw [collapseWs_cons2, if_neg ha]
    simp only [wsOnlySpace, List.all_cons] at ih ⊢
    simp [ih, ha]

theorem collapseWs_noAdj (l : List Char) :
    noAdjWs (collapseWs l) = true := by
  induction l using collapseWs.induct with
  | case1 => rfl
  | case2 c h => rw [collapseWs_single, if_pos h]; rfl
  | case3 c h => rw [collapseWs_single, if_neg h]; rfl
  | case4 a b rest ha hb ih =>
    rwa [collapseWs_cons2, if_pos ha, if_pos hb]
  | case5 a b rest ha hb ih =>
    rw [collapseWs_cons2, if_pos ha, if_neg hb]
    rw [noAdjWs_cons, ih, collapseWs_headIsWs]
    simp [headIsWs, hb]
  | case6 a b rest ha ih =>
    rw [collapseWs_cons2, if_neg ha]
    rw [noAdjWs_cons, ih]
    simp [ha]

theorem collapseWs_of_canonical (l : List Char)
    (hw : wsOnlySpace l = true) (hn : noAdjWs l = true) :
    collapseWs l = l := by
  induction l using collapseWs.induct with
  | case1 => rfl
  | case2 c h =>
    rw [collapseWs_single, if_pos h]
    simp only [wsOnlySpace, List.all_cons, List.all_nil, Bool.and_true] at hw
    rcases Bool.or_eq_true_iff.mp hw with hw | hw
    · simp [h] at hw
    · rw [beq_iff_eq.mp hw]
  | case3 c h => rw [collapseWs_single, if_neg h]
  | case4 a b rest ha hb ih =>
    rw [noAdjWs_cons] at hn
    have := (Bool.and_eq_true_iff.mp hn).1
    simp [ha, hb, headIsWs] at this
  | case5 a b rest ha hb ih =>
    rw [collapseWs_cons2, if_pos ha, if_neg hb]
    simp only [wsOnlySpace, List.all_cons] at hw
    have ha' : a = ' ' := by
      rcases Bool.or_eq_true_iff.mp (Bool.and_eq_true_iff.mp hw).1 with h' | h'
      · simp [ha] at h'
      · exact beq_iff_eq.mp h'
    rw [ih (by simp [wsOnlySpace, (Bool.and_eq_true_iff.mp hw).2])
        (noAdjWs_tail hn), ha']
  | case6 a b rest ha ih =>
    rw [collapseWs_cons2, if_neg ha]
    simp only [wsOnlySpace, List.all_cons] at hw
    rw [ih (by simp [wsOnlySpace, (Bool.and_eq_true_iff.mp hw).2])
        (noAdjWs_tail hn)]

theorem mem_collapseWs {c : Char} {l : List Char} (h : c ∈ collapseWs l) :
    c = ' ' ∨ c ∈ l := by
  induction l using collapseWs.induct with
  | case1 => cases h
  | case2 d hd =>
    rw [collapseWs_single, if_pos hd] at h
    rcases List.mem_singleton.mp h with rfl
    exact Or.inl rfl
  | case3 d hd =>
    rw [collapseWs_single, if_neg hd] at h
    exact Or.inr h
  | case4 a b rest ha hb ih =>
    rw [collapseWs_cons2, if_pos ha, if_pos hb] at h
    rcases ih h with h' | h'
    · exact Or.inl h'
    · exact Or.inr (List.mem_cons_of_mem _ h')
  | case5 a b rest ha hb ih =>
    rw [collapseWs_cons2, if_pos ha, if_neg hb] at h
    rcases List.mem_cons.mp h with rfl | h'
    · exact Or.inl rfl
    · rcases ih h' with h'' | h''
      · exact Or.inl h''
      · exact Or.inr (List.mem_cons_of_mem _ h'')
  | case6 a b rest ha ih =>
    rw [collapseWs_cons2, if_neg ha] at h
    rcases List.mem_cons.mp h with rfl | h'
    · exact Or.inr (List.mem_cons_self _ _)
    · rcases ih h' with h'' | h''
      · exact Or.inl h''
      · exact Or.inr (List.mem_cons_of_mem _ h'')



theorem upperStr_headIsWs (l : List Char) :
    headIsWs (upperStr l) = headIsWs l := by
  cases l with
  | nil => rfl
  | cons c rest => simp [upperStr, headIsWs, upperChar_isWhitespace]

theorem upperStr_wsOnly {l : List Char} (h : wsOnlySpace l = true) :
    wsOnlySpace (upperStr l) = true := by
  induction l with
  | nil => rfl
  | cons c rest ih =>
    simp only [wsOnlySpace, upperStr, List.map_cons, List.all_cons,
      Bool.and_eq_true_iff] at h ⊢
    refine ⟨?_, ih h.2⟩
    rcases Bool.or_eq_true_iff.mp h.1 with h' | h'
    · rw [Bool.or_eq_true_iff]
      left
      rwa [upperChar_isWhitespace]
    · have hc : c = ' ' := beq_iff_eq.mp h'
      subst hc
      decide

theorem upperStr_noAdj {l : List Char} (h : noAdjWs l = true) :
    noAdjWs (upperStr l) = true := by
  induction l with
  | nil => rfl
  | cons c rest ih =>
    rw [noAdjWs_cons] at h
    rcases Bool.and_eq_true_iff.mp h with ⟨h1, h2⟩
    show noAdjWs (upperChar c :: upperStr rest) = true
    rw [noAdjWs_cons, upperStr_headIsWs, upperChar_isWhitespace, ih h2, h1]
    rfl

theorem upperStr_idem (l : List Char) : upperStr (upperStr l) = upperStr l := by
  simp only [upperStr, List.map_map]
  exact List.map_congr_left (fun c _ => upperChar_idem c)

theorem all_dropWhile (p q : Char → Bool) {l : List Char}
    (h : l.all p = true) : (l.dropWhile q).all p = true := by
  induction l with
  | nil => rfl
  | cons c rest ih =>
    rw [List.all_cons, Bool.and_eq_true_iff] at h
    rw [List.dropWhile_cons]
    split
    · exact ih h.2
    · rw [List.all_cons, Bool.and_eq_true_iff]
      exact ⟨h.1, h.2⟩

theorem dropTrailWs_cons_nil {c : Char} {rest : List Char}
    (h : dropTrailWs rest = [] ∧ c.isWhitespace = true) :
    dropTrailWs (c :: rest) = [] := by
  show (if dropTrailWs rest = [] ∧ c.isWhitespace = true then []
    else c :: dropTrailWs rest) = []
  rw [if_pos h]

theorem dropTrailWs_cons_keep {c : Char} {rest : List Char}
    (h : ¬(dropTrailWs rest = [] ∧ c.isWhitespace = true)) :
    dropTrailWs (c :: rest) = c :: dropTrailWs rest := by
  show (if dropTrailWs rest = [] ∧ c.isWhitespace = true then []
    else c :: dropTrailWs rest) = c :: dropTrailWs rest
  rw [if_neg h]

theorem dropTrailWs_cons_eq (c : Char) (rest : List Char) :
    dropTrailWs (c :: rest) = [] ∨
    dropTrailWs (c :: rest) = c :: dropTrailWs rest := by
  by_cases h : dropTrailWs rest = [] ∧ c.isWhitespace = true
  · exact Or.inl (dropTrailWs_cons_nil h)
  · exact Or.inr (dropTrailWs_cons_keep h)

theorem all_dropTrailWs (p : Char → Bool) {l : List Char}
    (h : l.all p = true) : (dropTrailWs l).all p = true := by
  induction l with
  | nil => rfl
  | cons c rest ih =>
    rw [List.all_cons, Bool.and_eq_true_iff] at h
    rcases dropTrailWs_cons_eq c rest with h' | h'
    · rw [h']; rfl
    · rw [h', List.all_cons, Bool.and_eq_true_iff]
      exact ⟨h.1, ih h.2⟩

theorem dropTrailWs_headIsWs {l : List Char} (h : headIsWs l = false) :
    headIsWs (dropTrailWs l) = false := by
  cases l with
  | nil => rfl
  | cons c rest =>
    rcases dropTrailWs_cons_eq c rest with h' | h'
    · rw [h']; rfl
    · rw [h']; exact h

theorem dropTrailWs_noAdj {l : List Char} (h : noAdjWs l = true) :
    noAdjWs (dropTrailWs l) = true := by
  induction l with
  | nil => rfl
  | cons c rest ih =>
    rcases dropTrailWs_cons_eq c rest with h' | h'
    · rw [h']; rfl
    · rw [h', noAdjWs_cons]
      rw [noAdjWs_cons] at h
      rcases Bool.and_eq_true_iff.mp h with ⟨h1, h2⟩
      rw [ih h2, Bool.and_true]
      cases rest with
      | nil => simp [dropTrailWs, headIsWs]
      | cons d rest2 =>
        rcases dropTrailWs_cons_eq d rest2 with hr | hr
        · rw [hr]
          simp [headIsWs]
        · rw [hr]
          rw [show headIsWs (d :: rest2) = d.isWhitespace from rfl] at h1
          rw [show headIsWs (d :: dropTrailWs rest2) = d.isWhitespace from rfl]
          exact h1

theorem dropTrailWs_idem (l : List Char) :
    dropTrailWs (dropTrailWs l) = dropTrailWs l := by
  induction l with
  | nil => rfl
  | cons c rest ih =>
    by_cases h : dropTrailWs rest = [] ∧ c.isWhitespace = true
    · rw [dropTrailWs_cons_nil h]; rfl
    · rw [dropTrailWs_cons_keep h, dropTrailWs_cons_keep (by rw [ih]; exact h), ih]

theorem dropWhile_eq_self_of_head {l : List Char} (h : headIsWs l = false) :
    l.dropWhile Char.isWhitespace = l := by
  cases l with
  | nil => rfl
  | cons c rest =>
    rw [List.dropWhile_cons, if_neg]
    rw [show headIsWs (c :: rest) = c.isWhitespace from rfl] at h
    simp [h]

theorem headIsWs_dropWhile (l : List Char) :
    headIsWs (l.dropWhile Char.isWhitespace) = false := by
  induction l with
  | nil => rfl
  | cons c rest ih =>
    rw [List.dropWhile_cons]
    split
    · exact ih
    · rename_i hc
      simpa [headIsWs] using hc

theorem noAdjWs_dropWhile {l : List Char} (h : noAdjWs l = true) :
    noAdjWs (l.dropWhile Char.isWhitespace) = true := by
  induction l with
  | nil => rfl
  | cons c rest ih =>
    rw [List.dropWhile_cons]
    split
    · exact ih (noAdjWs_tail h)
    · exact h

/-- The canonical whitespace form shared by the first three steps of the
normalizer: collapse runs, uppercase, strip. -/
def canonWs (l : List Char) : List Char := stripChars (upperStr (collapseWs l))

theorem canonWs_wsOnly (l : List Char) : wsOnlySpace (canonWs l) = true := by
  unfold canonWs stripChars
  exact all_dropTrailWs _ (all_dropWhile _ _ (upperStr_wsOnly (collapseWs_wsOnly l)))

theorem canonWs_noAdj (l : List Char) : noAdjWs (canonWs l) = true := by
  unfold canonWs stripChars
  exact dropTrailWs_noAdj (noAdjWs_dropWhile (upperStr_noAdj (collapseWs_noAdj l)))

theorem canonWs_headNotWs (l : List Char) : headIsWs (canonWs l) = false := by
  unfold canonWs stripChars
  exact dropTrailWs_headIsWs (headIsWs_dropWhile _)

theorem stripChars_of_canon (l : List Char) : stripChars (canonWs l) = canonWs l := by
  unfold stripChars
  rw [dropWhile_eq_self_of_head (canonWs_headNotWs l)]
  show dropTrailWs (dropTrailWs _) = _
  exact dropTrailWs_idem _

theorem map_dropWhileWs (f : Char → Char)
    (hf : ∀ c, (f c).isWhitespace = c.isWhitespace) (l : List Char) :
    (List.map f l).dropWhile Char.isWhitespace =
      List.map f (l.dropWhile Char.isWhitespace) := by
  induction l with
  | nil => rfl
  | cons c rest ih =>
    rw [List.map_cons, List.dropWhile_cons, List.dropWhile_cons, hf c]
    split
    · exact ih
    · rw [List.map_cons]

theorem map_dropTrailWs (f : Char → Char)
    (hf : ∀ c, (f c).isWhitespace = c.isWhitespace) (l : List Char) :
    dropTrailWs (List.map f l) = List.map f (dropTrailWs l) := by
  induction l with
  | nil => rfl
  | cons c rest ih =>
    rw [List.map_cons]
    unfold dropTrailWs
    rw [ih, hf c]
    by_cases hc : dropTrailWs rest = [] ∧ c.isWhitespace = true
    · rw [if_pos ⟨by rw [hc.1]; rfl, hc.2⟩, if_pos hc]
      rfl
    · rw [if_neg (by
        intro hcon
        exact hc ⟨by
          cases hdt : dropTrailWs rest with
          | nil => rfl
          | cons x xs => rw [hdt] at hcon; simp at hcon, hcon.2⟩),
        if_neg hc, List.map_cons]

theorem upperStr_stripChars (l : List Char) :
    upperStr (stripChars l) = stripChars (upperStr l) := by
  unfold stripChars upperStr
  rw [map_dropWhileWs upperChar upperChar_isWhitespace,
    map_dropTrailWs upperChar upperChar_isWhitespace]

theorem upperStr_canonWs (l : List Char) :
    upperStr (canonWs l) = canonWs l := by
  unfold canonWs
  rw [upperStr_stripChars, upperStr_idem]

theorem collapseWs_canonWs (l : List Char) :
    collapseWs (canonWs l) = canonWs l :=
  collapseWs_of_canonical _ (canonWs_wsOnly l) (canonWs_noAdj l)

/-- The canonical form is idempotent. -/
theorem canonWs_idem (l : List Char) : canonWs (canonWs l) = canonWs l := by
  conv_lhs => rw [canonWs, collapseWs_canonWs, upperStr_canonWs]
  exact stripChars_of_canon l

/-- Whether the string starts with a star character. -/
def headIsStar : List Char → Bool
  | [] => false
  | c :: _ => c == '*'

/-- Whether the string contains a comment opener: a slash immediately
followed by a star. -/
def hasCO : List Char → Bool
  | c1 :: c2 :: rest => (c1 == '/' && c2 == '*') || hasCO (c2 :: rest)
  | _ => false

theorem hasCO_cons_iff (c : Char) (l : List Char) :
    hasCO (c :: l) = ((c == '/') && headIsStar l || hasCO l) := by
  cases l <;> simp [hasCO, headIsStar]

theorem hasCO_cons_of {c : Char} {l : List Char} (h : hasCO l = true) :
    hasCO (c :: l) = true := by
  rw [hasCO_cons_iff, h, Bool.or_true]

theorem headIsStar_not_ws {l : List Char} (h : headIsStar l = true) :
    headIsWs l = false := by
  cases l with
  | nil => rfl
  | cons c rest =>
    have : c = '*' := beq_iff_eq.mp h
    subst this
    rfl

theorem collapseWs_cons_of_not_ws {c : Char} (rest : List Char)
    (h : ¬ c.isWhitespace = true) :
    collapseWs (c :: rest) = c :: collapseWs rest := by
  cases rest with
  | nil =>
    rw [collapseWs_single, if_neg h]
    rfl
  | cons b rest2 =>
    rw [collapseWs_cons2, if_neg h]

theorem headIsStar_collapseWs {l : List Char}
    (h : headIsStar (collapseWs l) = true) : headIsStar l = true := by
  cases l with
  | nil => cases h
  | cons c rest =>
    by_cases hc : c.isWhitespace = true
    · have hw : headIsWs (collapseWs (c :: rest)) = true := by
        rw [collapseWs_headIsWs]
        exact hc
      rw [headIsStar_not_ws h] at hw
      cases hw
    · rw [collapseWs_cons_of_not_ws rest hc] at h
      exact h

theorem hasCO_collapseWs {l : List Char}
    (h : hasCO (collapseWs l) = true) : hasCO l = true := by
  induction l using collapseWs.induct with
  | case1 => cases h
  | case2 c hc => rw [collapseWs_single, if_pos hc] at h; cases h
  | case3 c hc => rw [collapseWs_single, if_neg hc] at h; exact h
  | case4 a b rest ha hb ih =>
    rw [collapseWs_cons2, if_pos ha, if_pos hb] at h
    exact hasCO_cons_of (ih h)
  | case5 a b rest ha hb ih =>
    rw [collapseWs_cons2, if_pos ha, if_neg hb] at h
    rw [hasCO_cons_iff] at h
    rcases Bool.or_eq_true_iff.mp h with h' | h'
    · have : (' ' == '/') = false := by decide
      rw [this, Bool.false_and] at h'
      cases h'
    · exact hasCO_cons_of (ih h')
  | case6 a b rest ha ih =>
    rw [collapseWs_cons2, if_neg ha] at h
    rw [hasCO_cons_iff] at h
    rcases Bool.or_eq_true_iff.mp h with h' | h'
    · rcases Bool.and_eq_true_iff.mp h' with ⟨h1, h2⟩
      have hb := headIsStar_collapseWs h2
      rw [hasCO_cons_iff, show headIsStar (b :: rest) = (b == '*') from rfl] at *
      rw [h1, beq_iff_eq.mp hb]
      simp
    · exact hasCO_cons_of (ih h')

theorem headIsStar_upperStr {l : List Char}
    (h : headIsStar (upperStr l) = true) : headIsStar l = true := by
  cases l with
  | nil => cases h
  | cons c rest =>
    have : upperChar c = '*' :=
      beq_iff_eq.mp (by simpa [upperStr, headIsStar] using h)
    rw [show headIsStar (c :: rest) = (c == '*') from rfl,
      upperChar_eq_star this]
    rfl

theorem hasCO_upperStr {l : List Char}
    (h : hasCO (upperStr l) = true) : hasCO l = true := by
  induction l with
  | nil => cases h
  | cons c rest ih =>
    rw [show upperStr (c :: rest) = upperChar c :: upperStr rest from rfl,
      hasCO_cons_iff] at h
    rcases Bool.or_eq_true_iff.mp h with h' | h'
    · rcases Bool.and_eq_true_iff.mp h' with ⟨h1, h2⟩
      rw [hasCO_cons_iff]
      rw [upperChar_eq_slash (beq_iff_eq.mp h1)]
      rw [headIsStar_upperStr h2]
      simp
    · exact hasCO_cons_of (ih h')

theorem hasCO_dropWhile {l : List Char}
    (h : hasCO (l.dropWhile Char.isWhitespace) = true) : hasCO l = true := by
  induction l with
  | nil => cases h
  | cons c rest ih =>
    rw [List.dropWhile_cons] at h
    by_cases hc : c.isWhitespace = true
    · rw [if_pos hc] at h
      exact hasCO_cons_of (ih h)
    · rwa [if_neg hc] at h

theorem headIsStar_dropTrailWs {l : List Char}
    (h : headIsStar (dropTrailWs l) = true) : headIsStar l = true := by
  cases l with
  | nil => cases h
  | cons c rest =>
    rcases dropTrailWs_cons_eq c rest with h' | h'
    · rw [h'] at h; cases h
    · rw [h'] at h; exact h

theorem hasCO_dropTrailWs {l : List Char}
    (h : hasCO (dropTrailWs l) = true) : hasCO l = true := by
  induction l with
  | nil => cases h
  | cons c rest ih =>
    rcases dropTrailWs_cons_eq c rest with h' | h'
    · rw [h'] at h; cases h
    · rw [h', hasCO_cons_iff] at h
      rcases Bool.or_eq_true_iff.mp h with h2 | h2
      · rcases Bool.and_eq_true_iff.mp h2 with ⟨h3, h4⟩
        rw [hasCO_cons_iff, h3, headIsStar_dropTrailWs h4]
        rfl
      · exact hasCO_cons_of (ih h2)

/-- The string contains none of the three quote characters. -/
def noQuote (l : List Char) : Bool := l.all (fun c => !(isQuoteChar c))

theorem noQuote_collapseWs {l : List Char} (h : noQuote l = true) :
    noQuote (collapseWs l) = true := by
  rw [noQuote, List.all_eq_true] at h ⊢
  intro c hc
  rcases mem_collapseWs hc with rfl | hc'
  · decide
  · exact h c hc'

theorem noQuote_upperStr {l : List Char} (h : noQuote l = true) :
    noQuote (upperStr l) = true := by
  rw [noQuote, List.all_eq_true] at h ⊢
  intro c hc
  rcases List.mem_map.mp hc with ⟨d, hd, rfl⟩
  rw [Bool.not_eq_true', upperChar_quote]
  rw [← Bool.not_eq_true']
  exact h d hd

theorem noQuote_stripChars {l : List Char} (h : noQuote l = true) :
    noQuote (stripChars l) = true :=
  all_dropTrailWs _ (all_dropWhile _ _ h)

theorem removeQuotes_of_noQuote {l : List Char} (h : noQuote l = true) :
    removeQuotes l = l := by
  rw [noQuote, List.all_eq_true] at h
  unfold removeQuotes
  exact List.filter_eq_self.mpr h

theorem removeCommentsF_succ_cons (fuel : ℕ) (c : Char) (rest : List Char) :
    removeCommentsF (fuel + 1) (c :: rest) =
      if c = '/' ∧ rest.head? = some '*' then
        (match dropToClose rest.tail with
         | some suffix => removeCommentsF fuel suffix
         | none => c :: removeCommentsF fuel rest)
      else c :: removeCommentsF fuel rest := rfl

theorem removeCommentsF_of_noCO (fuel : ℕ) :
    ∀ l : List Char, hasCO l = false → removeCommentsF fuel l = l := by
  induction fuel with
  | zero => intro l _; rfl
  | succ n ih =>
    intro l h
    cases l with
    | nil => rfl
    | cons c rest =>
      rw [removeCommentsF_succ_cons, if_neg, ih rest]
      · rw [hasCO_cons_iff, Bool.or_eq_false_iff] at h
        exact h.2
      · rintro ⟨rfl, hstar⟩
        cases rest with
        | nil => cases hstar
        | cons d rest2 =>
          have hd : d = '*' := by
            simpa using hstar
          subst hd
          rw [hasCO_cons_iff] at h
          simp [headIsStar] at h

theorem removeComments_of_noCO {l : List Char} (h : hasCO l = false) :
    removeComments l = l :=
  removeCommentsF_of_noCO l.length l h

theorem noQuote_canonWs {l : List Char} (h : noQuote l = true) :
    noQuote (canonWs l) = true :=
  noQuote_stripChars (noQuote_upperStr (noQuote_collapseWs h))

theorem hasCO_canonWs {l : List Char} (h : hasCO l = false) :
    hasCO (canonWs l) = false := by
  cases hc : hasCO (canonWs l)
  · rfl
  · unfold canonWs stripChars at hc
    have := hasCO_collapseWs (hasCO_upperStr (hasCO_dropWhile (hasCO_dropTrailWs hc)))
    rw [this] at h
    cases h

/-- Under the no-quote/no-comment side conditions the last two substitutions
are the identity, so the normalizer coincides with the canonical whitespace
form. -/
theorem normalizeSql_eq_canon {l : List Char} (hq : noQuote l = true)
    (hc : hasCO l = false) : normalizeSql l = canonWs l := by
  unfold normalizeSql
  rw [show stripChars (upperStr (collapseWs l)) = canonWs l from rfl]
  rw [removeQuotes_of_noQuote (noQuote_canonWs hq),
    removeComments_of_noCO (hasCO_canonWs hc)]

/-- C2 (amended): the exact-match normalization is idempotent on every
string that contains no quote character and no comment opener (for other
strings, removing quotes or comments can merge two whitespace runs that
only a second pass would collapse, as the counterexample shows); and the
normalizations of "SELECT  *  FROM t" and "select * from t" agree. -/
theorem c2_normalize_idempotent_amended :
    (∀ s : List Char, noQuote s = true → hasCO s = false →
      normalizeSql (normalizeSql s) = normalizeSql s) ∧
    normalizeSql "SELECT  *  FROM t".toList =
      normalizeSql "select * from t".toList := by
  constructor
  · intro s hq hc
    rw [normalizeSql_eq_canon hq hc,
      normalizeSql_eq_canon (noQuote_canonWs hq) (hasCO_canonWs hc),
      canonWs_idem]
  · decide

/-- Witness for C2: the amended idempotence applied to a concrete string. -/
theorem c2_witness :
    (noQuote "SELECT A FROM T".toList = true ∧
      hasCO "SELECT A FROM T".toList = false) ∧
    normalizeSql (normalizeSql "SELECT A FROM T".toList) =
      normalizeSql "SELECT A FROM T".toList :=
  ⟨⟨by decide, by decide⟩,
    c2_normalize_idempotent_amended.1 _ (by decide) (by decide)⟩

/-- Word characters of the `\w` class (ASCII fragment): letters, digits and
the underscore. -/
def isWordChar (c : Char) : Bool := c.isAlphanum || c == '_'

/-- Length of the leading whitespace run. -/
def wsRunLen (l : List Char) : ℕ := (l.takeWhile Char.isWhitespace).length

/-- Match of the regex `FROM\s+(\w+)` anchored at the start of `l`; returns
the captured word together with the rest of the input after the match. The
whitespace and word classes are disjoint, so the greedy quantifiers are
deterministic: the capture is the maximal word run after the maximal
whitespace run. -/
def matchFromAt (l : List Char) : Option (List Char × List Char) :=
  if "FROM".toList.isPrefixOf l then
    if headIsWs (l.drop 4) = true then
      if ((l.drop 4).dropWhile Char.isWhitespace).takeWhile isWordChar = [] then
        none
      else
        some (((l.drop 4).dropWhile Char.isWhitespace).takeWhile isWordChar,
          ((l.drop 4).dropWhile Char.isWhitespace).drop
            (((l.drop 4).dropWhile Char.isWhitespace).takeWhile isWordChar).length)
    else none
  else none

theorem matchFromAt_after_lt {l cap after : List Char}
    (h : matchFromAt l = some (cap, after)) : after.length < l.length := by
  unfold matchFromAt at h
  by_cases h1 : "FROM".toList.isPrefixOf l = true
  swap
  · rw [if_neg h1] at h; cases h
  rw [if_pos h1] at h
  by_cases h2 : headIsWs (l.drop 4) = true
  swap
  · rw [if_neg h2] at h; cases h
  rw [if_pos h2] at h
  by_cases h3 : ((l.drop 4).dropWhile Char.isWhitespace).takeWhile isWordChar = []
  · rw [if_pos h3] at h; cases h
  rw [if_neg h3] at h
  have hafter : after = ((l.drop 4).dropWhile Char.isWhitespace).drop
      (((l.drop 4).dropWhile Char.isWhitespace).takeWhile isWordChar).length := by
    cases h; rfl
  have hr4 : 4 ≤ l.length := by
    have := List.IsPrefix.length_le (List.isPrefixOf_iff_prefix.mp h1)
    simpa using this
  have hws : ∃ c rest, l.drop 4 = c :: rest ∧ c.isWhitespace = true := by
    cases hd : l.drop 4 with
    | nil => rw [hd] at h2; cases h2
    | cons c rest =>
      rw [hd] at h2
      exact ⟨c, rest, rfl, h2⟩
  rcases hws with ⟨c, rest, hd, hc⟩
  have hdw : (l.drop 4).dropWhile Char.isWhitespace =
      rest.dropWhile Char.isWhitespace := by
    rw [hd, List.dropWhile_cons, if_pos hc]
  have hcapnn : 1 ≤ (((l.drop 4).dropWhile Char.isWhitespace).takeWhile
      isWordChar).length := by
    cases hcp : ((l.drop 4).dropWhile Char.isWhitespace).takeWhile isWordChar with
    | nil => exact absurd hcp h3
    | cons x xs => simp [hcp]
  have hlen1 : ((l.drop 4).dropWhile Char.isWhitespace).length ≤ rest.length := by
    rw [hdw]
    exact (List.dropWhile_sublist _).length_le
  have hrest : rest.length + 1 + 4 ≤ l.length := by
    have hld : (l.drop 4).length = l.length - 4 := List.length_drop 4 l
    rw [hd] at hld
    simp at hld
    omega
  rw [hafter, List.length_drop]
  omega

/-- All non-overlapping matches of `FROM\s+(\w+)`, scanning left to right
(the semantics of `re.findall`): at each position try a match; on success
emit the capture and resume after the match, otherwise advance one
character. -/
def findallFromTables (l : List Char) : List (List Char) :=
  match l with
  | [] => []
  | c :: rest =>
    match h : matchFromAt (c :: rest) with
    | some capafter => capafter.1 :: findallFromTables capafter.2
    | none => findallFromTables rest
termination_by l.length
decreasing_by
  · exact matchFromAt_after_lt h
  · simp

/-- Match of the regex `SELECT\s+(.*?)\s+FROM` anchored at the start of `l`,
with the regex engine's backtracking order: the first greedy `\s+` prefers
the longest whitespace run (descending `k`), the lazy capture prefers the
shortest prefix (ascending `j`, dot excludes the newline), the second greedy
`\s+` prefers the longest run (descending `m`), then the literal `FROM`.
Returns the capture of the first combination that succeeds. -/
def matchSelectAt (l : List Char) : Option (List Char) :=
  if "SELECT".toList.isPrefixOf l then
    let r := l.drop 6
    ((List.range (wsRunLen r)).reverse.map (· + 1)).findSome? (fun k =>
      let s := r.drop k
      (List.range (s.length + 1)).findSome? (fun j =>
        let cap := s.take j
        if cap.any (· == '\n') then none
        else
          let t := s.drop j
          ((List.range (wsRunLen t)).reverse.map (· + 1)).findSome? (fun m =>
            if "FROM".toList.isPrefixOf (t.drop m) then some cap else none)))
  else none

/-- First match of `SELECT\s+(.*?)\s+FROM` in `l` (the only one the source
uses: `columns[0]`), scanning left to right. -/
def findFirstSelectCols : List Char → Option (List Char)
  | [] => none
  | c :: rest =>
    match matchSelectAt (c :: rest) with
    | some cap => some cap
    | none => findFirstSelectCols rest

/-- Match of `WHERE\s+(.*?)(?:\s+GROUP BY|\s+ORDER BY|$)` anchored at the
start of `l`: greedy `\s+` descending, lazy capture ascending, then the
alternation tried left to right; `$` matches at the end of the string or
just before a final newline. -/
def matchWhereAt (l : List Char) : Option (List Char) :=
  if "WHERE".toList.isPrefixOf l then
    let r := l.drop 5
    ((List.range (wsRunLen r)).reverse.map (· + 1)).findSome? (fun k =>
      let s := r.drop k
      (List.range (s.length + 1)).findSome? (fun j =>
        let cap := s.take j
        if cap.any (· == '\n') then none
        else
          let t := s.drop j
          let tryKw : List Char → Option (List Char) := fun kw =>
            ((List.range (wsRunLen t)).reverse.map (· + 1)).findSome? (fun m =>
              if kw.isPrefixOf (t.drop m) then some cap else none)
          match tryKw "GROUP BY".toList with
          | some cap2 => some cap2
          | none =>
            match tryKw "ORDER BY".toList with
            | some cap2 => some cap2
            | none => if t = [] ∨ t = ['\n'] then some cap else none))
  else none

/-- First match of the WHERE pattern in `l` (`conditions[0]` in the source),
scanning left to right. -/
def findFirstWhereCond : List Char → Option (List Char)
  | [] => none
  | c :: rest =>
    match matchWhereAt (c :: rest) with
    | some cap => some cap
    | none => findFirstWhereCond rest

/-- Models Python `str.split('AND')`: split at every non-overlapping
occurrence of the three-letter separator, keeping empty pieces. -/
def splitOnAnd (l : List Char) : List (List Char) :=
  match l with
  | [] => [[]]
  | c :: rest =>
    if "AND".toList.isPrefixOf (c :: rest) then
      [] :: splitOnAnd (rest.drop 2)
    else
      match splitOnAnd rest with
      | piece :: pieces => (c :: piece) :: pieces
      | [] => [[c]]
termination_by l.length
decreasing_by
  · simp [List.length_drop]
    omega
  · simp

/-- Embedding of `extract_sql_elements` inside
`_evaluate_semantic_similarity`: uppercase the SQL, collect all `FROM`
table captures, the first `SELECT ... FROM` column list split on commas and
stripped, and the first `WHERE ...` condition split on `AND` and stripped,
then join everything with single spaces. -/
def extractSqlElements (sql : List Char) : List Char :=
  let up := upperStr sql
  let tables := findallFromTables up
  let columns := findFirstSelectCols up
  let conditions := findFirstWhereCond up
  let elements :=
    tables ++
    (match columns with
     | some cap => (cap.splitOn ',').map stripChars
     | none => []) ++
    (match conditions with
     | some cap => (splitOnAnd cap).map stripChars
     | none => [])
  List.intercalate [' '] elements

/-- Models Python `str.lower` on a single character (ASCII fragment). -/
def lowerChar (c : Char) : Char :=
  if 65 ≤ c.toNat ∧ c.toNat ≤ 90 then Char.ofNat (c.toNat + 32) else c

/-- Models the lowercasing the vectorizer applies to each document. -/
def lowerStr (l : List Char) : List Char := l.map lowerChar

/-- Maximal runs of word characters (the matches of the default token
pattern before the length restriction). -/
def wordRuns (l : List Char) : List (List Char) :=
  match l with
  | [] => []
  | c :: rest =>
    if isWordChar c then
      ((c :: rest).takeWhile isWordChar) ::
        wordRuns ((c :: rest).dropWhile isWordChar)
    else wordRuns rest
termination_by l.length
decreasing_by
  · rename_i hw
    show ((c :: rest).dropWhile isWordChar).length < (c :: rest).length
    rw [List.dropWhile_cons, if_pos hw]
    have := (List.dropWhile_sublist (l := rest) isWordChar).length_le
    simp
    omega
  · simp

/-- Models the tokenizer of `TfidfVectorizer` (default configuration):
lowercase the document and keep the maximal word-character runs of length at
least two (token pattern `\w\w+` with word boundaries). -/
def tokensOf (doc : List Char) : List (List Char) :=
  (wordRuns (lowerStr doc)).filter (fun t => 2 ≤ t.length)

/-- Document frequency of a token over the two-document corpus. -/
def dfOf (t : List Char) (toks1 toks2 : List (List Char)) : ℕ :=
  (if t ∈ toks1 then 1 else 0) + (if t ∈ toks2 then 1 else 0)

/-- Models the smoothed inverse document frequency of `TfidfVectorizer`
(`smooth_idf=True`, corpus size 2): `ln((1+2)/(1+df)) + 1`, in exact real
arithmetic. -/
noncomputable def idfOf (t : List Char) (toks1 toks2 : List (List Char)) : ℝ :=
  Real.log (3 / (1 + (dfOf t toks1 toks2 : ℝ))) + 1

/-- Raw tf-idf row of one document over the shared vocabulary: term count
times inverse document frequency, one entry per vocabulary token. -/
noncomputable def tfidfRaw (toks toks1 toks2 : List (List Char))
    (vocab : List (List Char)) : List ℝ :=
  vocab.map (fun t => (toks.count t : ℝ) * idfOf t toks1 toks2)

/-- Sum of squares of a real vector. -/
noncomputable def sumSq (v : List ℝ) : ℝ := (v.map (fun x => x ^ 2)).sum

/-- Models `sklearn` row normalization (`norm='l2'`): divide by the
Euclidean norm, leaving an all-zero row unchanged. -/
noncomputable def l2normalize (v : List ℝ) : List ℝ :=
  if sumSq v = 0 then v else v.map (fun x => x / Real.sqrt (sumSq v))

/-- Dot product of two real vectors. -/
noncomputable def dotL (a b : List ℝ) : ℝ := (List.zipWith (· * ·) a b).sum

/-- Models `sklearn.metrics.pairwise.cosine_similarity` of two rows:
normalize each row (zero rows stay zero) and take the dot product. -/
noncomputable def cosineSim (a b : List ℝ) : ℝ :=
  dotL (l2normalize a) (l2normalize b)

/-- Embedding of `Text2SQLEvaluator._evaluate_semantic_similarity`: extract
the SQL elements of both strings; if either side is empty return 0.0;
otherwise vectorize the two element strings with tf-idf over their own
two-document corpus and return the cosine similarity of the two rows. An
empty vocabulary makes the vectorizer raise, which the source's bare
`except` converts to 0.0. The vocabulary is taken in first-occurrence order
(sklearn sorts it; the cosine similarity is invariant under that
permutation, both entries being reordered alike). -/
noncomputable def semanticSimilarity (generatedSql groundTruthSql : List Char) : ℝ :=
  let genElems := extractSqlElements generatedSql
  let gtElems := extractSqlElements groundTruthSql
  if genElems = [] ∨ gtElems = [] then 0
  else
    let toks1 := tokensOf genElems
    let toks2 := tokensOf gtElems
    let vocab := (toks1 ++ toks2).dedup
    if vocab = [] then 0
    else
      cosineSim (l2normalize (tfidfRaw toks1 toks1 toks2 vocab))
        (l2normalize (tfidfRaw toks2 toks1 toks2 vocab))

theorem sumSq_nonneg (v : List ℝ) : 0 ≤ sumSq v := by
  unfold sumSq
  apply List.sum_nonneg
  intro x hx
  rcases List.mem_map.mp hx with ⟨y, _, rfl⟩
  exact sq_nonneg y

theorem sumSq_map_div (v : List ℝ) (s : ℝ) :
    sumSq (v.map (fun x => x / s)) = sumSq v / s ^ 2 := by
  unfold sumSq
  induction v with
  | nil => simp
  | cons x rest ih =>
    simp only [List.map_cons, List.sum_cons] at ih ⊢
    rw [ih, div_pow, add_div]

theorem sumSq_l2normalize (v : List ℝ) :
    sumSq (l2normalize v) = 0 ∨ sumSq (l2normalize v) = 1 := by
  unfold l2normalize
  by_cases h : sumSq v = 0
  · rw [if_pos h]
    exact Or.inl h
  · rw [if_neg h]
    right
    rw [sumSq_map_div, Real.sq_sqrt (sumSq_nonneg v)]
    exact div_self h

theorem l2normalize_nonneg {v : List ℝ} (hv : ∀ x ∈ v, 0 ≤ x) :
    ∀ x ∈ l2normalize v, 0 ≤ x := by
  unfold l2normalize
  by_cases h : sumSq v = 0
  · rw [if_pos h]; exact hv
  · rw [if_neg h]
    intro x hx
    rcases List.mem_map.mp hx with ⟨y, hy, rfl⟩
    exact div_nonneg (hv y hy) (Real.sqrt_nonneg _)

theorem dotL_nonneg {a b : List ℝ} (ha : ∀ x ∈ a, 0 ≤ x)
    (hb : ∀ x ∈ b, 0 ≤ x) : 0 ≤ dotL a b := by
  unfold dotL
  induction a generalizing b with
  | nil => simp
  | cons x as ih =>
    cases b with
    | nil => simp
    | cons y bs =>
      rw [List.zipWith_cons_cons, List.sum_cons]
      have h1 : 0 ≤ x * y :=
        mul_nonneg (ha x (List.mem_cons_self _ _)) (hb y (List.mem_cons_self _ _))
      have h2 := ih (fun z hz => ha z (List.mem_cons_of_mem _ hz))
        (b := bs) (fun z hz => hb z (List.mem_cons_of_mem _ hz))
      linarith

theorem cs_step (x y D A B : ℝ) (hA : 0 ≤ A) (hB : 0 ≤ B)
    (hD : D ^ 2 ≤ A * B) : (x * y + D) ^ 2 ≤ (x ^ 2 + A) * (y ^ 2 + B) := by
  rcases eq_or_lt_of_le hB with hB0 | hBpos
  · have hD0 : D = 0 := by nlinarith [sq_nonneg D]
    subst hD0
    nlinarith [mul_nonneg hA (sq_nonneg y)]
  · nlinarith [sq_nonneg (x * B - y * D),
      mul_nonneg (add_nonneg (sq_nonneg y) hB) (sub_nonneg.mpr hD), hBpos]

theorem dotL_sq_le (a b : List ℝ) :
    dotL a b ^ 2 ≤ sumSq a * sumSq b := by
  unfold dotL sumSq
  induction a generalizing b with
  | nil => simp
  | cons x as ih =>
    cases b with
    | nil =>
      simp only [List.zipWith_nil_right, List.sum_nil, List.map_nil, mul_zero]
      simp
    | cons y bs =>
      rw [List.zipWith_cons_cons, List.sum_cons, List.map_cons, List.map_cons,
        List.sum_cons, List.sum_cons]
      have hA : (0:ℝ) ≤ (as.map (fun z => z ^ 2)).sum := by
        have := sumSq_nonneg as; unfold sumSq at this; exact this
      have hB : (0:ℝ) ≤ (bs.map (fun z => z ^ 2)).sum := by
        have := sumSq_nonneg bs; unfold sumSq at this; exact this
      exact cs_step x y _ _ _ hA hB (ih bs)

theorem cosineSim_bounds {a b : List ℝ} (ha : ∀ x ∈ a, 0 ≤ x)
    (hb : ∀ x ∈ b, 0 ≤ x) : 0 ≤ cosineSim a b ∧ cosineSim a b ≤ 1 := by
  unfold cosineSim
  have hu := l2normalize_nonneg ha
  have hv := l2normalize_nonneg hb
  have h1 : 0 ≤ dotL (l2normalize a) (l2normalize b) := dotL_nonneg hu hv
  have h2 := dotL_sq_le (l2normalize a) (l2normalize b)
  have h3 : sumSq (l2normalize a) ≤ 1 := by
    rcases sumSq_l2normalize a with h | h <;> rw [h] <;> norm_num
  have h4 : sumSq (l2normalize b) ≤ 1 := by
    rcases sumSq_l2normalize b with h | h <;> rw [h] <;> norm_num
  have h5 : (0:ℝ) ≤ sumSq (l2normalize a) := sumSq_nonneg _
  have h6 : (0:ℝ) ≤ sumSq (l2normalize b) := sumSq_nonneg _
  refine ⟨h1, ?_⟩
  nlinarith

theorem tfidfRaw_nonneg (toks toks1 toks2 vocab : List (List Char)) :
    ∀ x ∈ tfidfRaw toks toks1 toks2 vocab, 0 ≤ x := by
  intro x hx
  rcases List.mem_map.mp hx with ⟨t, _, rfl⟩
  apply mul_nonneg (by positivity)
  unfold idfOf
  have hdf : (dfOf t toks1 toks2 : ℝ) ≤ 2 := by
    unfold dfOf
    push_cast
    split_ifs <;> norm_num
  have hpos : (0:ℝ) < 1 + (dfOf t toks1 toks2 : ℝ) := by positivity
  have hlog : 0 ≤ Real.log (3 / (1 + (dfOf t toks1 toks2 : ℝ))) := by
    apply Real.log_nonneg
    rw [le_div_iff hpos]
    linarith
  linarith

/-- The modelled semantic similarity always lies in the unit interval. -/
theorem semanticSimilarity_bounds (generatedSql groundTruthSql : List Char) :
    0 ≤ semanticSimilarity generatedSql groundTruthSql ∧
    semanticSimilarity generatedSql groundTruthSql ≤ 1 := by
  unfold semanticSimilarity
  by_cases h1 : extractSqlElements generatedSql = [] ∨
      extractSqlElements groundTruthSql = []
  · rw [if_pos h1]
    norm_num
  · rw [if_neg h1]
    by_cases h2 : (tokensOf (extractSqlElements generatedSql) ++
        tokensOf (extractSqlElements groundTruthSql)).dedup = []
    · rw [if_pos h2]
      norm_num
    · rw [if_neg h2]
      exact cosineSim_bounds
        (l2normalize_nonneg (tfidfRaw_nonneg _ _ _ _))
        (l2normalize_nonneg (tfidfRaw_nonneg _ _ _ _))

/-- Embedding of `Text2SQLRAGSystem.retrieve_context`, given the hits the
vector index returned for the question. The chroma query answers with the
documents and distances of one query as two aligned lists
(`results['documents'][0]` / `results['distances'][0]`); a hit list models
that pair of aligned lists, one `(document, distance)` entry per neighbour.
Each distance `d` becomes the relevance score `1 - d/10`, with no clamping. -/
def retrieveContext (hits : List (List Char × ℚ)) :
    List (List Char) × List ℚ :=
  (hits.map Prod.fst, hits.map (fun h => 1 - h.2 / 10))

/-- Embedding of `Text2SQLEvaluator._evaluate_retrieval_quality`: the mean
of the scores returned by the retriever, 0.0 for an empty score list. -/
def evaluateRetrievalQuality (hits : List (List Char × ℚ)) : ℚ :=
  let scores := (retrieveContext hits).2
  if scores = [] then 0 else scores.sum / scores.length

/-- Python truthiness of the optional connection string: `None` and the
empty string are falsy. -/
def dbTruthy : Option (List Char) → Bool
  | none => false
  | some s => !s.isEmpty

/-- Embedding of `Text2SQLEvaluator._evaluate_execution_accuracy`, as a
function of what the database did. `none` models an exception outside the
two inner try blocks (for example `create_engine` raising, caught by the
outer handler); `some (g, t)` gives the outcomes of executing the generated
and the ground-truth SQL, a component being `none` when the corresponding
`conn.execute` raised and `some rows` when it returned that row list. Rows
are compared pairwise by equality over an arbitrary row type, matching the
source's positional `zip` comparison of row dictionaries. -/
def evaluateExecutionAccuracy {ρ : Type} [DecidableEq ρ]
    (outcome : Option (Option (List ρ) × Option (List ρ))) : ℚ :=
  match outcome with
  | none => 0
  | some (none, _) => 0
  | some (some _, none) => 0
  | some (some gen, some gt) =>
    if gen.length ≠ gt.length then 0
    else if (gen.zip gt).any (fun p => decide (p.1 ≠ p.2)) then 1/2
    else 1

/-- Everything the external world contributes to one evaluation of
`evaluate_single_example`: the SQL string the generation endpoint produced
for the question, the vector-index hits for the question, the optional
database connection string, and the database outcome for the two SQL
statements. -/
structure EvalEnv (ρ : Type) where
  generatedSql : List Char
  hits : List (List Char × ℚ)
  dbConnection : Option (List Char)
  execOutcome : Option (Option (List ρ) × Option (List ρ))

/-- The record `evaluate_single_example` returns: the three strings and the
five scalar scores. -/
structure EvalRecord where
  question : List Char
  generated_sql : List Char
  ground_truth_sql : List Char
  syntax_accuracy : ℚ
  execution_accuracy : ℚ
  exact_match : ℚ
  semantic_similarity : ℝ
  retrieval_quality : ℚ

/-- Embedding of `Text2SQLEvaluator.evaluate_single_example`: compute the
syntax score of the generated SQL; attempt the execution score only when the
connection string is truthy and the syntax score is positive, recording 0.0
otherwise; then the exact-match, semantic-similarity and retrieval-quality
scores. -/
noncomputable def evaluateSingleExample {ρ : Type} [DecidableEq ρ]
    (question groundTruthSql : List Char) (env : EvalEnv ρ) : EvalRecord :=
  let generatedSql := env.generatedSql
  let syntaxScore := evaluateSyntax generatedSql
  { question := question
    generated_sql := generatedSql
    ground_truth_sql := groundTruthSql
    syntax_accuracy := syntaxScore
    execution_accuracy :=
      if dbTruthy env.dbConnection = true ∧ syntaxScore > 0 then
        evaluateExecutionAccuracy env.execOutcome
      else 0
    exact_match := evaluateExactMatch generatedSql groundTruthSql
    semantic_similarity := semanticSimilarity generatedSql groundTruthSql
    retrieval_quality := evaluateRetrievalQuality env.hits }

/-- C5: `retrieve_context` converts each distance `d` into the relevance
score `1 - d/10` with no clamping (at distance 20 the score is -1, outside
the unit interval), returns contexts and scores as two aligned sequences of
equal length, and returns two empty lists when the index returns no
results. -/
theorem c5_retrieve_context :
    (∀ hits : List (List Char × ℚ),
      (retrieveContext hits).2 = hits.map (fun h => 1 - h.2 / 10) ∧
      (retrieveContext hits).1 = hits.map Prod.fst ∧
      (retrieveContext hits).1.length = (retrieveContext hits).2.length) ∧
    retrieveContext [] = ([], []) ∧
    (retrieveContext [("ctx".toList, 20)]).2 = [-1] := by
  refine ⟨fun hits => ⟨rfl, rfl, by simp [retrieveContext]⟩, rfl, ?_⟩
  show [1 - (20:ℚ) / 10] = [-1]
  norm_num

/-- C9: the retrieval-quality score equals the arithmetic mean of the
scores returned by `retrieve_context`, and is 0.0 for an empty score
list. -/
theorem c9_retrieval_quality_mean :
    (∀ hits : List (List Char × ℚ), (retrieveContext hits).2 ≠ [] →
      evaluateRetrievalQuality hits =
        ((retrieveContext hits).2).sum / ((retrieveContext hits).2).length) ∧
    (∀ hits : List (List Char × ℚ), (retrieveContext hits).2 = [] →
      evaluateRetrievalQuality hits = 0) := by
  constructor
  · intro hits h
    simp only [evaluateRetrievalQuality]
    rw [if_neg h]
  · intro hits h
    simp only [evaluateRetrievalQuality]
    rw [if_pos h]

/-- Witness for C9 at a concrete one-hit retrieval result. -/
theorem c9_witness :
    ((retrieveContext [("CTX".toList, 2)]).2 ≠ []) ∧
    evaluateRetrievalQuality [("CTX".toList, 2)] =
      ((retrieveContext [("CTX".toList, 2)]).2).sum /
        ((retrieveContext [("CTX".toList, 2)]).2).length :=
  ⟨by decide, c9_retrieval_quality_mean.1 _ (by decide)⟩

/-- C6: the execution score is attempted only when the connection string is
truthy and the syntax score is positive — otherwise 0.0 is recorded without
consulting the database outcome at all — and, when attempted, it is 0.0 if
either execution raised (or the engine could not be created) or the row
counts differ, 0.5 if the counts match but some corresponding row pair
differs, and 1.0 if all corresponding rows match. -/
theorem c6_execution_gating {ρ : Type} [DecidableEq ρ]
    (question groundTruthSql : List Char) (env : EvalEnv ρ) :
    ((evaluateSingleExample question groundTruthSql env).execution_accuracy =
      if dbTruthy env.dbConnection = true ∧ evaluateSyntax env.generatedSql > 0
      then evaluateExecutionAccuracy env.execOutcome else 0) ∧
    evaluateExecutionAccuracy (ρ := ρ) none = 0 ∧
    (∀ o, evaluateExecutionAccuracy (ρ := ρ) (some (none, o)) = 0) ∧
    (∀ g, evaluateExecutionAccuracy (ρ := ρ) (some (some g, none)) = 0) ∧
    (∀ g t : List ρ, evaluateExecutionAccuracy (some (some g, some t)) =
      if g.length ≠ t.length then 0
      else if (g.zip t).any (fun p => decide (p.1 ≠ p.2)) then 1/2 else 1) :=
  ⟨rfl, rfl, fun _ => rfl, fun _ => rfl, fun _ _ => rfl⟩

/-- The environment refuting the range claim: the vector index reports a
single neighbour at distance 20, making the relevance score -1. -/
def envC3 : EvalEnv Unit :=
  { generatedSql := "SELECT A FROM T".toList
    hits := [("CTX".toList, 20)]
    dbConnection := none
    execOutcome := none }

/-- C3 counterexample: at retriever distance 20 the produced record has
retrieval_quality = -1, outside the unit interval. -/
theorem c3_counterexample :
    ¬(0 ≤ (evaluateSingleExample "Q".toList "SELECT A FROM T".toList
        envC3).retrieval_quality ∧
      (evaluateSingleExample "Q".toList "SELECT A FROM T".toList
        envC3).retrieval_quality ≤ 1) := by
  have h : (evaluateSingleExample "Q".toList "SELECT A FROM T".toList
      envC3).retrieval_quality = evaluateRetrievalQuality envC3.hits := rfl
  rw [h]
  have h2 : evaluateRetrievalQuality envC3.hits = -1 := by
    show (if ([1 - (20:ℚ)/10] : List ℚ) = [] then (0:ℚ)
      else ([1 - (20:ℚ)/10] : List ℚ).sum / ([1 - (20:ℚ)/10] : List ℚ).length) = -1
    rw [if_neg (by simp)]
    norm_num
  rw [h2]
  norm_num

theorem retrieval_quality_bounds (hits : List (List Char × ℚ))
    (h : ∀ p ∈ hits, 0 ≤ p.2 ∧ p.2 ≤ 10) :
    0 ≤ evaluateRetrievalQuality hits ∧ evaluateRetrievalQuality hits ≤ 1 := by
  simp only [evaluateRetrievalQuality]
  by_cases hnil : (retrieveContext hits).2 = []
  · rw [if_pos hnil]
    norm_num
  · rw [if_neg hnil]
    have hscore : ∀ x ∈ (retrieveContext hits).2, 0 ≤ x ∧ x ≤ 1 := by
      intro x hx
      rcases List.mem_map.mp hx with ⟨p, hp, rfl⟩
      rcases h p hp with ⟨h1, h2⟩
      constructor <;> [linarith [div_le_one_of_le h2 (by norm_num : (0:ℚ) ≤ 10)];
        skip]
      have : 0 ≤ p.2 / 10 := div_nonneg h1 (by norm_num)
      linarith
    have hpos : 0 < (retrieveContext hits).2.length :=
      List.length_pos.mpr hnil
    have hposq : (0:ℚ) < ((retrieveContext hits).2.length : ℚ) := by
      exact_mod_cast hpos
    constructor
    · apply div_nonneg _ hposq.le
      exact List.sum_nonneg (fun x hx => (hscore x hx).1)
    · rw [div_le_one hposq]
      calc ((retrieveContext hits).2).sum
          ≤ (retrieveContext hits).2.length • (1:ℚ) :=
            List.sum_le_card_nsmul _ _ (fun x hx => (hscore x hx).2)
        _ = ((retrieveContext hits).2.length : ℚ) := by
            simp [nsmul_eq_mul]

/-- C3 (amended): every record produced by `evaluate_single_example` has
its five scores in the unit interval — execution_accuracy moreover in
{0.0, 0.5, 1.0} — provided every distance the retriever returned lies in
[0, 10]; without that restriction retrieval_quality leaves [0,1], as the
counterexample shows. -/
theorem c3_score_ranges {ρ : Type} [DecidableEq ρ]
    (question groundTruthSql : List Char) (env : EvalEnv ρ)
    (hdist : ∀ p ∈ env.hits, 0 ≤ p.2 ∧ p.2 ≤ 10) :
    (0 ≤ (evaluateSingleExample question groundTruthSql env).syntax_accuracy ∧
      (evaluateSingleExample question groundTruthSql env).syntax_accuracy ≤ 1) ∧
    ((evaluateSingleExample question groundTruthSql env).execution_accuracy = 0 ∨
      (evaluateSingleExample question groundTruthSql env).execution_accuracy = 1/2 ∨
      (evaluateSingleExample question groundTruthSql env).execution_accuracy = 1) ∧
    (0 ≤ (evaluateSingleExample question groundTruthSql env).exact_match ∧
      (evaluateSingleExample question groundTruthSql env).exact_match ≤ 1) ∧
    (0 ≤ (evaluateSingleExample question groundTruthSql env).semantic_similarity ∧
      (evaluateSingleExample question groundTruthSql env).semantic_similarity ≤ 1) ∧
    (0 ≤ (evaluateSingleExample question groundTruthSql env).retrieval_quality ∧
      (evaluateSingleExample question groundTruthSql env).retrieval_quality ≤ 1) := by
  refine ⟨?_, ?_, ?_, ?_, ?_⟩
  · show 0 ≤ evaluateSyntax env.generatedSql ∧ evaluateSyntax env.generatedSql ≤ 1
    rw [evaluateSyntax_eq]
    split_ifs <;> norm_num
  · have hexec : (evaluateSingleExample question groundTruthSql
        env).execution_accuracy =
        (if dbTruthy env.dbConnection = true ∧
            evaluateSyntax env.generatedSql > 0
         then evaluateExecutionAccuracy env.execOutcome else 0) := rfl
    rw [hexec]
    split_ifs with hgate
    · rcases env.execOutcome with _ | ⟨og, ot⟩
      · exact Or.inl rfl
      · rcases og with _ | g
        · exact Or.inl rfl
        · rcases ot with _ | t
          · exact Or.inl rfl
          · simp only [evaluateExecutionAccuracy]
            split_ifs
            · exact Or.inl rfl
            · exact Or.inr (Or.inl rfl)
            · exact Or.inr (Or.inr rfl)
    · exact Or.inl rfl
  · show 0 ≤ evaluateExactMatch env.generatedSql groundTruthSql ∧
      evaluateExactMatch env.generatedSql groundTruthSql ≤ 1
    unfold evaluateExactMatch
    split_ifs <;> norm_num
  · exact semanticSimilarity_bounds env.generatedSql groundTruthSql
  · exact retrieval_quality_bounds env.hits hdist

/-- The concrete environment for the C3 witness: one neighbour at distance
5, no database connection. -/
def envC3w : EvalEnv Unit :=
  { generatedSql := "SELECT A FROM T".toList
    hits := [("CTX".toList, 5)]
    dbConnection := none
    execOutcome := none }

/-- Witness for C3: the amended range theorem applied at a concrete
environment whose single distance lies in [0, 10]. -/
theorem c3_witness :
    (∀ p ∈ envC3w.hits, 0 ≤ p.2 ∧ p.2 ≤ 10) ∧
    ((0 ≤ (evaluateSingleExample "Q".toList "SELECT A FROM T".toList
        envC3w).syntax_accuracy ∧
      (evaluateSingleExample "Q".toList "SELECT A FROM T".toList
        envC3w).syntax_accuracy ≤ 1) ∧
    ((evaluateSingleExample "Q".toList "SELECT A FROM T".toList
        envC3w).execution_accuracy = 0 ∨
      (evaluateSingleExample "Q".toList "SELECT A FROM T".toList
        envC3w).execution_accuracy = 1/2 ∨
      (evaluateSingleExample "Q".toList "SELECT A FROM T".toList
        envC3w).execution_accuracy = 1) ∧
    (0 ≤ (evaluateSingleExample "Q".toList "SELECT A FROM T".toList
        envC3w).exact_match ∧
      (evaluateSingleExample "Q".toList "SELECT A FROM T".toList
        envC3w).exact_match ≤ 1) ∧
    (0 ≤ (evaluateSingleExample "Q".toList "SELECT A FROM T".toList
        envC3w).semantic_similarity ∧
      (evaluateSingleExample "Q".toList "SELECT A FROM T".toList
        envC3w).semantic_similarity ≤ 1) ∧
    (0 ≤ (evaluateSingleExample "Q".toList "SELECT A FROM T".toList
        envC3w).retrieval_quality ∧
      (evaluateSingleExample "Q".toList "SELECT A FROM T".toList
        envC3w).retrieval_quality ≤ 1)) :=
  ⟨by decide, c3_score_ranges "Q".toList "SELECT A FROM T".toList envC3w (by decide)⟩

/-- One knowledge snippet as assembled by `train_rag_model`: the stripped
line text, the metadata type label (the "type" key), the metadata source
file and the assigned id. -/
structure Snippet where
  text : List Char
  typeLabel : List Char
  source : List Char
  id : List Char
  deriving DecidableEq

/-- Decimal representation of a line index, as interpolated by the
f-string. -/
def natDigits (n : ℕ) : List Char := (Nat.repr n).toList

/-- The underscore separator of the id format. -/
def und : List Char := ['_']

/-- One per-file ingestion loop of `train_rag_model`: enumerate the lines,
keep the ones whose strip is non-empty, and build the snippet with the
given metadata type label and id prefix. -/
def processLines (typeLabel idPre source : List Char)
    (lines : List (List Char)) : List Snippet :=
  lines.enum.filterMap (fun p =>
    if stripChars p.2 = [] then none
    else some { text := stripChars p.2, typeLabel := typeLabel,
                source := source,
                id := idPre ++ und ++ source ++ und ++ natDigits p.1 })

/-- Embedding of `Text2SQLRAGSystem.train_rag_model`: the three file loops
append their snippets in order. Files are given as (path, lines) pairs. The
source uses the id prefixes "ddl", "doc" and "ex" for the three loops while
the metadata type labels are "ddl", "documentation" and "example". -/
def trainRagModel (ddlFiles docFiles exampleFiles :
    List (List Char × List (List Char))) : List Snippet :=
  (ddlFiles.map (fun f => processLines "ddl".toList "ddl".toList f.1 f.2)).join ++
  (docFiles.map (fun f =>
    processLines "documentation".toList "doc".toList f.1 f.2)).join ++
  (exampleFiles.map (fun f =>
    processLines "example".toList "ex".toList f.1 f.2)).join

/-- The documentation snippet produced for the one-line file F. -/
def docSnippet : Snippet :=
  { text := "X".toList, typeLabel := "documentation".toList,
    source := "F".toList, id := "doc_F_0".toList }

/-- C4 counterexample: a documentation snippet's id starts with "doc", not
with its type label "documentation", so the claimed id shape
`<type>_<file>_<line-index>` fails on the one-line documentation file F. -/
theorem c4_counterexample :
    ¬(∀ s ∈ trainRagModel [] [("F".toList, ["X".toList])] [],
        ∃ idx : ℕ,
          s.id = s.typeLabel ++ und ++ s.source ++ und ++ natDigits idx) := by
  intro h
  have hm : docSnippet ∈ trainRagModel [] [("F".toList, ["X".toList])] [] := by
    decide
  rcases h _ hm with ⟨idx, hid⟩
  simp only [docSnippet, und] at hid
  have hlen := congrArg List.length hid
  simp [natDigits] at hlen

theorem processLines_spec (typeLabel idPre source : List Char)
    (lines : List (List Char)) :
    ∀ s ∈ processLines typeLabel idPre source lines,
      s.typeLabel = typeLabel ∧ s.source = source ∧
      ∃ idx : ℕ, s.id = idPre ++ und ++ source ++ und ++ natDigits idx := by
  intro s hs
  unfold processLines at hs
  rcases List.mem_filterMap.mp hs with ⟨p, _, heq⟩
  by_cases hstrip : stripChars p.2 = []
  · rw [if_pos hstrip] at heq
    cases heq
  · rw [if_neg hstrip] at heq
    cases heq
    exact ⟨rfl, rfl, p.1, rfl⟩

/-- C4 (amended): every snippet id has the deterministic form
`<prefix>_<file>_<line-index>`, where the prefix is the fixed per-loop tag
"ddl" / "doc" / "ex" paired with the snippet's type label "ddl" /
"documentation" / "example" — for documentation and example snippets the id
prefix is an abbreviation, not the type label itself. -/
theorem c4_snippet_ids (ddlFiles docFiles exampleFiles :
    List (List Char × List (List Char))) :
    ∀ s ∈ trainRagModel ddlFiles docFiles exampleFiles,
      ∃ pre idx, ((s.typeLabel, pre) = ("ddl".toList, "ddl".toList) ∨
        (s.typeLabel, pre) = ("documentation".toList, "doc".toList) ∨
        (s.typeLabel, pre) = ("example".toList, "ex".toList)) ∧
        s.id = pre ++ und ++ s.source ++ und ++ natDigits idx := by
  intro s hs
  unfold trainRagModel at hs
  rcases List.mem_append.mp hs with hs1 | hsC
  · rcases List.mem_append.mp hs1 with hsA | hsB
    · rcases List.mem_join.mp hsA with ⟨part, hpart, hsp⟩
      rcases List.mem_map.mp hpart with ⟨f, _, rfl⟩
      rcases processLines_spec _ _ _ _ s hsp with ⟨ht, hsrc, idx, hid⟩
      exact ⟨"ddl".toList, idx, Or.inl (by rw [ht]), by rw [hid, hsrc]⟩
    · rcases List.mem_join.mp hsB with ⟨part, hpart, hsp⟩
      rcases List.mem_map.mp hpart with ⟨f, _, rfl⟩
      rcases processLines_spec _ _ _ _ s hsp with ⟨ht, hsrc, idx, hid⟩
      exact ⟨"doc".toList, idx, Or.inr (Or.inl (by rw [ht])), by rw [hid, hsrc]⟩
  · rcases List.mem_join.mp hsC with ⟨part, hpart, hsp⟩
    rcases List.mem_map.mp hpart with ⟨f, _, rfl⟩
    rcases processLines_spec _ _ _ _ s hsp with ⟨ht, hsrc, idx, hid⟩
    exact ⟨"ex".toList, idx, Or.inr (Or.inr (by rw [ht])), by rw [hid, hsrc]⟩

/-- Witness for C4: the amended id-shape theorem at a concrete one-line
documentation file. -/
theorem c4_witness :
    (docSnippet ∈ trainRagModel [] [("F".toList, ["X".toList])] []) ∧
    (∃ pre idx,
      ((docSnippet.typeLabel, pre) = ("ddl".toList, "ddl".toList) ∨
        (docSnippet.typeLabel, pre) = ("documentation".toList, "doc".toList) ∨
        (docSnippet.typeLabel, pre) = ("example".toList, "ex".toList)) ∧
      docSnippet.id = pre ++ und ++ docSnippet.source ++ und ++ natDigits idx) :=
  ⟨by decide,
    c4_snippet_ids [] [("F".toList, ["X".toList])] [] docSnippet (by decide)⟩


/-- The four scores returned by the RAGAS bridge. -/
structure RagasScores where
  faithfulness : ℚ
  answer_relevancy : ℚ
  context_recall : ℚ
  context_precision : ℚ
  deriving DecidableEq

/-- Embedding of `RAGASAssessment._fallback_evaluation`: the constant
placeholder scores, ignoring the test cases. -/
def fallbackEvaluation {κ : Type} (testCases : List κ) : RagasScores :=
  { faithfulness := 0.7
    answer_relevancy := 0.6
    context_recall := 0.8
    context_precision := 0.75 }

/-- Embedding of `RAGASAssessment.evaluate_with_ragas`: the try block
(imports, dataset preparation and the framework's `evaluate` call) is
modelled by its outcome — a score map on success, an exception value when
anything in the block raised; the except handler returns the fallback. -/
def evaluateWithRagas {κ : Type} (testCases : List κ)
    (frameworkOutcome : Except (List Char) RagasScores) : RagasScores :=
  match frameworkOutcome with
  | Except.ok scores => scores
  | Except.error _ => fallbackEvaluation testCases

/-- C8: whenever the framework call raises, `evaluate_with_ragas` returns
exactly the constant mapping {faithfulness 0.7, answer_relevancy 0.6,
context_recall 0.8, context_precision 0.75}, for every input test set and
every exception. -/
theorem c8_ragas_fallback {κ : Type} (testCases : List κ)
    (errorMessage : List Char) :
    evaluateWithRagas testCases (Except.error errorMessage) =
      { faithfulness := 0.7, answer_relevancy := 0.6,
        context_recall := 0.8, context_precision := 0.75 } := rfl

/-- One test case of the lightweight evaluator; `reference_sql` is the
result of `case.get("reference_sql", "")`, so a missing key is the empty
string. -/
structure LwCase where
  question : List Char
  generated_sql : List Char
  schema : List Char
  reference_sql : List Char
  deriving DecidableEq

/-- The judgment record `evaluate_single_case` produces. -/
structure LwJudgment where
  grammar_correct : Bool
  equivalent_to_reference : Option Bool
  answers_correctly : Bool
  is_valid : Bool
  deriving DecidableEq

/-- Embedding of `LightweightText2SQLEvaluator._clean_response`: strip and
lowercase the completion, then look for the fixed keyword tokens in
priority order. (The final branch is dead: a reply containing 不等价 also
contains 等价 and is caught one branch earlier, as in the source.) -/
def cleanResponse (response : List Char) : List Char :=
  let r := lowerStr (stripChars response)
  if containsSeq "正确".toList r then "正确".toList
  else if containsSeq "错误".toList r then "错误".toList
  else if containsSeq "等价".toList r then "等价".toList
  else if containsSeq "不等价".toList r then "不等价".toList
  else []

/-- The grammar-judgment prompt template. -/
def grammarPrompt (sql : List Char) : List Char :=
  "判断以下SQL语句是否语法正确。只需回答\"正确\"或\"错误\"。\nSQL: ".toList ++
    sql ++ "\n答案:".toList

/-- The equivalence-judgment prompt template. -/
def equivalencePrompt (question sql1 sql2 : List Char) : List Char :=
  "判断两个SQL语句在语义上是否等价，即是否会返回相同结果。\n问题: ".toList ++
    question ++ "\nSQL1: ".toList ++ sql1 ++ "\nSQL2: ".toList ++ sql2 ++
    "\n只需回答\"等价\"或\"不等价\"。\n答案:".toList

/-- The correctness-judgment prompt template. -/
def correctnessPrompt (question schema sql : List Char) : List Char :=
  "判断SQL语句是否能正确回答问题。只需回答\"正确\"或\"错误\"。\n问题: ".toList ++
    question ++ "\n数据库结构: ".toList ++ schema ++
    "\nSQL语句: ".toList ++ sql ++ "\n答案:".toList

/-- Embedding of `evaluate_grammar`: `llm` models the text-generation
pipeline, mapping a prompt to the completion text after the prompt. -/
def evaluateGrammar (llm : List Char → List Char) (sql : List Char) : Bool :=
  cleanResponse (llm (grammarPrompt sql)) == "正确".toList

/-- Embedding of `evaluate_equivalence`. -/
def evaluateEquivalence (llm : List Char → List Char)
    (question sql1 sql2 : List Char) : Bool :=
  cleanResponse (llm (equivalencePrompt question sql1 sql2)) == "等价".toList

/-- Embedding of `evaluate_correctness`. -/
def evaluateCorrectness (llm : List Char → List Char)
    (question sql schema : List Char) : Bool :=
  cleanResponse (llm (correctnessPrompt question schema sql)) == "正确".toList

/-- Embedding of `LightweightText2SQLEvaluator.evaluate_single_case`. -/
def evaluateSingleCase (llm : List Char → List Char) (case : LwCase) :
    LwJudgment :=
  let grammarOk := evaluateGrammar llm case.generated_sql
  let equivalent :=
    if case.reference_sql ≠ [] then
      some (evaluateEquivalence llm case.question case.generated_sql
        case.reference_sql)
    else none
  let correct :=
    evaluateCorrectness llm case.question case.generated_sql case.schema
  { grammar_correct := grammarOk
    equivalent_to_reference := equivalent
    answers_correctly := correct
    is_valid := grammarOk && correct }

/-- Embedding of `LightweightText2SQLEvaluator.evaluate_batch`: judge each
case, pair it with its judgment (the `{**case, **eval_result}` merge), count
the valid ones, and divide by the number of cases unless the test set is
empty, in which case the accuracy is 0.0. -/
def evaluateBatch (llm : List Char → List Char) (testCases : List LwCase) :
    ℚ × List (LwCase × LwJudgment) :=
  let results := testCases.map (fun case => (case, evaluateSingleCase llm case))
  let validCount := (results.filter (fun r => r.2.is_valid)).length
  (if testCases ≠ [] then (validCount : ℚ) / testCases.length else 0, results)

/-- C10: on an empty test set `evaluate_batch` returns accuracy 0.0 and an
empty results list — the division by the number of cases is guarded by the
emptiness conditional, so the call is well defined on empty input, for
every model. -/
theorem c10_evaluate_batch_empty (llm : List Char → List Char) :
    evaluateBatch llm [] = (0, []) := by
  simp [evaluateBatch]


/-- The backtick character (codepoint 96). -/
def tickChar : Char := Char.ofNat 96

/-- Fuel-indexed scanner modelling `re.sub(r'```sql\s*', '', sql)`: at each
position, the literal fence tag followed by its greedy trailing whitespace
is removed, otherwise one character is emitted. The wrapper supplies the
input length as fuel, which suffices because every step consumes at least
one input character. -/
def removeSqlFenceF : ℕ → List Char → List Char
  | 0, l => l
  | _ + 1, [] => []
  | fuel + 1, c :: rest =>
    if "```sql".toList.isPrefixOf (c :: rest) then
      removeSqlFenceF fuel (((c :: rest).drop 6).dropWhile Char.isWhitespace)
    else c :: removeSqlFenceF fuel rest

/-- First substitution of `_clean_sql_output`. -/
def removeSqlFence (l : List Char) : List Char := removeSqlFenceF l.length l

/-- Fuel-indexed scanner modelling `re.sub(r'\s*```', '', sql)`: a match at
a position is a whitespace run (possibly empty) whose end is immediately
followed by three backticks — the run and the backticks are removed
together; otherwise one character is emitted. -/
def removeTicksWsF : ℕ → List Char → List Char
  | 0, l => l
  | _ + 1, [] => []
  | fuel + 1, c :: rest =>
    if "```".toList.isPrefixOf ((c :: rest).dropWhile Char.isWhitespace) then
      removeTicksWsF fuel (((c :: rest).dropWhile Char.isWhitespace).drop 3)
    else c :: removeTicksWsF fuel rest

/-- Second substitution of `_clean_sql_output`. -/
def removeTicksWs (l : List Char) : List Char := removeTicksWsF l.length l

/-- Embedding of `Text2SQLRAGSystem._clean_sql_output`: remove the
```sql-tagged fence opener, remove remaining backtick fences with their
leading whitespace, then collapse whitespace runs and strip. -/
def cleanSqlOutput (sql : List Char) : List Char :=
  stripChars (collapseWs (removeTicksWs (removeSqlFence sql)))

theorem removeSqlFenceF_nil (fuel : ℕ) : removeSqlFenceF fuel [] = [] := by
  cases fuel <;> rfl

theorem removeTicksWsF_nil (fuel : ℕ) : removeTicksWsF fuel [] = [] := by
  cases fuel <;> rfl

theorem removeSqlFenceF_congr :
    ∀ f1 f2 l, l.length ≤ f1 → l.length ≤ f2 →
      removeSqlFenceF f1 l = removeSqlFenceF f2 l := by
  intro f1
  induction f1 with
  | zero =>
    intro f2 l h1 _
    have : l = [] := List.eq_nil_of_length_eq_zero (Nat.le_zero.mp h1)
    subst this
    rw [removeSqlFenceF_nil, removeSqlFenceF_nil]
  | succ n ih =>
    intro f2 l h1 h2
    cases l with
    | nil => rw [removeSqlFenceF_nil, removeSqlFenceF_nil]
    | cons c rest =>
      cases f2 with
      | zero => simp at h2
      | succ m =>
        show (if "```sql".toList.isPrefixOf (c :: rest) then
            removeSqlFenceF n (((c :: rest).drop 6).dropWhile Char.isWhitespace)
          else c :: removeSqlFenceF n rest) =
          (if "```sql".toList.isPrefixOf (c :: rest) then
            removeSqlFenceF m (((c :: rest).drop 6).dropWhile Char.isWhitespace)
          else c :: removeSqlFenceF m rest)
        split
        · apply ih
          · have := (List.dropWhile_sublist
              (l := (c :: rest).drop 6) Char.isWhitespace).length_le
            simp only [List.length_drop, List.length_cons] at this ⊢
            simp at h1
            omega
          · have := (List.dropWhile_sublist
              (l := (c :: rest).drop 6) Char.isWhitespace).length_le
            simp only [List.length_drop, List.length_cons] at this ⊢
            simp at h2
            omega
        · rw [ih m rest (by simp at h1; omega) (by simp at h2; omega)]

theorem removeTicksWsF_congr :
    ∀ f1 f2 l, l.length ≤ f1 → l.length ≤ f2 →
      removeTicksWsF f1 l = removeTicksWsF f2 l := by
  intro f1
  induction f1 with
  | zero =>
    intro f2 l h1 _
    have : l = [] := List.eq_nil_of_length_eq_zero (Nat.le_zero.mp h1)
    subst this
    rw [removeTicksWsF_nil, removeTicksWsF_nil]
  | succ n ih =>
    intro f2 l h1 h2
    cases l with
    | nil => rw [removeTicksWsF_nil, removeTicksWsF_nil]
    | cons c rest =>
      cases f2 with
      | zero => simp at h2
      | succ m =>
        show (if "```".toList.isPrefixOf
              ((c :: rest).dropWhile Char.isWhitespace) then
            removeTicksWsF n (((c :: rest).dropWhile Char.isWhitespace).drop 3)
          else c :: removeTicksWsF n rest) =
          (if "```".toList.isPrefixOf
              ((c :: rest).dropWhile Char.isWhitespace) then
            removeTicksWsF m (((c :: rest).dropWhile Char.isWhitespace).drop 3)
          else c :: removeTicksWsF m rest)
        split
        · rename_i hpre
          have hdw := (List.dropWhile_sublist
            (l := c :: rest) Char.isWhitespace).length_le
          have h3 : 3 ≤ ((c :: rest).dropWhile Char.isWhitespace).length := by
            have := List.IsPrefix.length_le (List.isPrefixOf_iff_prefix.mp hpre)
            simpa using this
          apply ih
          · simp only [List.length_drop, List.length_cons]
            simp at h1 hdw
            omega
          · simp only [List.length_drop, List.length_cons]
            simp at h2 hdw
            omega
        · rw [ih m rest (by simp at h1; omega) (by simp at h2; omega)]

theorem removeSqlFence_cons (c : Char) (rest : List Char) :
    removeSqlFence (c :: rest) =
      if "```sql".toList.isPrefixOf (c :: rest) then
        removeSqlFence (((c :: rest).drop 6).dropWhile Char.isWhitespace)
      else c :: removeSqlFence rest := by
  show removeSqlFenceF (rest.length + 1) (c :: rest) = _
  show (if "```sql".toList.isPrefixOf (c :: rest) then
      removeSqlFenceF rest.length (((c :: rest).drop 6).dropWhile Char.isWhitespace)
    else c :: removeSqlFenceF rest.length rest) = _
  split
  · apply removeSqlFenceF_congr
    · have := (List.dropWhile_sublist
        (l := (c :: rest).drop 6) Char.isWhitespace).length_le
      simp only [List.length_drop, List.length_cons] at this ⊢
      simp at this ⊢
      omega
    · rfl
  · rfl

theorem removeTicksWs_cons (c : Char) (rest : List Char) :
    removeTicksWs (c :: rest) =
      if "```".toList.isPrefixOf ((c :: rest).dropWhile Char.isWhitespace) then
        removeTicksWs (((c :: rest).dropWhile Char.isWhitespace).drop 3)
      else c :: removeTicksWs rest := by
  show removeTicksWsF (rest.length + 1) (c :: rest) = _
  show (if "```".toList.isPrefixOf ((c :: rest).dropWhile Char.isWhitespace) then
      removeTicksWsF rest.length (((c :: rest).dropWhile Char.isWhitespace).drop 3)
    else c :: removeTicksWsF rest.length rest) = _
  split
  · rename_i hpre
    apply removeTicksWsF_congr
    · have hdw := (List.dropWhile_sublist
        (l := c :: rest) Char.isWhitespace).length_le
      have h3 : 3 ≤ ((c :: rest).dropWhile Char.isWhitespace).length := by
        have := List.IsPrefix.length_le (List.isPrefixOf_iff_prefix.mp hpre)
        simpa using this
      simp only [List.length_drop, List.length_cons]
      simp at hdw ⊢
      omega
    · rfl
  · rfl

/-- C7 counterexample: for a fence with the language tag `python` the
cleaner removes the backticks but keeps the tag text, so the cleaned output
is not the cleaned body — fences with tags other than `sql` are not
stripped. -/
theorem c7_counterexample :
    cleanSqlOutput "```python\nSELECT 1\n```".toList =
      "python SELECT 1".toList ∧
    cleanSqlOutput "```python\nSELECT 1\n```".toList ≠
      stripChars (collapseWs "SELECT 1".toList) := by
  exact ⟨by decide, by decide⟩


/-- The string contains no backtick. -/
def noTick (l : List Char) : Bool := l.all (fun c => !(c == tickChar))

/-- Whether the string ends with a whitespace character. -/
def lastIsWs (l : List Char) : Bool :=
  match l.getLast? with
  | some c => c.isWhitespace
  | none => false

theorem lastIsWs_cons_cons (c d : Char) (rest : List Char) :
    lastIsWs (c :: d :: rest) = lastIsWs (d :: rest) := by
  simp [lastIsWs, List.getLast?_cons_cons]

theorem lastIsWs_dropTrailWs (l : List Char) :
    lastIsWs (dropTrailWs l) = false := by
  induction l with
  | nil => rfl
  | cons c rest ih =>
    by_cases h : dropTrailWs rest = [] ∧ c.isWhitespace = true
    · rw [dropTrailWs_cons_nil h]; rfl
    · rw [dropTrailWs_cons_keep h]
      cases hdt : dropTrailWs rest with
      | nil =>
        have hc : c.isWhitespace = false := by
          cases hw : c.isWhitespace
          · rfl
          · exact absurd ⟨hdt, hw⟩ h
        simp [lastIsWs, List.getLast?_singleton, hc]
      | cons d ds =>
        rw [lastIsWs_cons_cons, ← hdt, ih]

theorem dropTrailWs_eq_nil_of_all {l : List Char}
    (h : l.all Char.isWhitespace = true) : dropTrailWs l = [] := by
  induction l with
  | nil => rfl
  | cons c rest ih =>
    rw [List.all_cons, Bool.and_eq_true_iff] at h
    exact dropTrailWs_cons_nil ⟨ih h.2, h.1⟩

theorem dropTrailWs_ne_nil_of_not_all {l : List Char}
    (h : ¬ l.all Char.isWhitespace = true) : dropTrailWs l ≠ [] := by
  intro hcon
  exact h (List.all_eq_true.mpr (fun c hc => dropTrailWs_eq_nil l hcon c hc))

theorem isPrefixOf_append_self (p r : List Char) :
    p.isPrefixOf (p ++ r) = true :=
  List.isPrefixOf_iff_prefix.mpr ⟨r, rfl⟩

theorem tick_head_not_prefix_fence {c : Char} (hc : (c == tickChar) = false)
    (z : List Char) : "```".toList.isPrefixOf (c :: z) = false := by
  have e : "```".toList = tickChar :: tickChar :: tickChar :: [] := by decide
  rw [e]
  show (tickChar == c && List.isPrefixOf (tickChar :: tickChar :: []) z) = false
  have : (tickChar == c) = false := by
    cases heq : tickChar == c
    · rfl
    · rw [beq_iff_eq.mp heq] at hc
      simp at hc
  rw [this, Bool.false_and]

theorem tick_head_not_prefix_tag {c : Char} (hc : (c == tickChar) = false)
    (z : List Char) : "```sql".toList.isPrefixOf (c :: z) = false := by
  have e : "```sql".toList =
      tickChar :: tickChar :: tickChar :: 's' :: 'q' :: 'l' :: [] := by decide
  rw [e]
  show (tickChar == c &&
    List.isPrefixOf (tickChar :: tickChar :: 's' :: 'q' :: 'l' :: []) z) = false
  have : (tickChar == c) = false := by
    cases heq : tickChar == c
    · rfl
    · rw [beq_iff_eq.mp heq] at hc
      simp at hc
  rw [this, Bool.false_and]

theorem newline_not_tick : (('\n' : Char) == tickChar) = false := by decide

theorem tag_not_prefix_open1 (z : List Char) :
    "```sql".toList.isPrefixOf
      (tickChar :: tickChar :: tickChar :: '\n' :: z) = false := by
  have e : "```sql".toList =
      tickChar :: tickChar :: tickChar :: 's' :: 'q' :: 'l' :: [] := by decide
  rw [e]
  show (tickChar == tickChar && (tickChar == tickChar && (tickChar == tickChar &&
    (('s' : Char) == '\n' && List.isPrefixOf ('q' :: 'l' :: []) z)))) = false
  simp

theorem tag_not_prefix_open2 (z : List Char) :
    "```sql".toList.isPrefixOf (tickChar :: tickChar :: '\n' :: z) = false := by
  have e : "```sql".toList =
      tickChar :: tickChar :: tickChar :: 's' :: 'q' :: 'l' :: [] := by decide
  rw [e]
  show (tickChar == tickChar && (tickChar == tickChar && (tickChar == '\n' &&
    List.isPrefixOf ('s' :: 'q' :: 'l' :: []) z))) = false
  simp
  exact fun hcon => absurd hcon (by decide)

theorem tag_not_prefix_open3 (z : List Char) :
    "```sql".toList.isPrefixOf (tickChar :: '\n' :: z) = false := by
  have e : "```sql".toList =
      tickChar :: tickChar :: tickChar :: 's' :: 'q' :: 'l' :: [] := by decide
  rw [e]
  show (tickChar == tickChar && (tickChar == '\n' &&
    List.isPrefixOf ('s' :: 'q' :: 'l' :: []) z)) = false
  simp
  exact fun hcon => absurd hcon (by decide)

theorem tag_not_prefix_open4 (z : List Char) :
    "```sql".toList.isPrefixOf ('\n' :: z) = false := by
  have e : "```sql".toList =
      tickChar :: tickChar :: tickChar :: 's' :: 'q' :: 'l' :: [] := by decide
  rw [e]
  show (tickChar == '\n' &&
    List.isPrefixOf (tickChar :: tickChar :: 's' :: 'q' :: 'l' :: []) z) = false
  simp
  exact fun hcon => absurd hcon (by decide)

theorem removeSqlFence_cons_keep {c : Char} {rest : List Char}
    (h : "```sql".toList.isPrefixOf (c :: rest) = false) :
    removeSqlFence (c :: rest) = c :: removeSqlFence rest := by
  rw [removeSqlFence_cons, if_neg (by rw [h]; simp)]

theorem removeSqlFence_append_noTick {x : List Char} (t : List Char)
    (hx : noTick x = true) :
    removeSqlFence (x ++ t) = x ++ removeSqlFence t := by
  induction x with
  | nil => simp
  | cons c xs ih =>
    rw [noTick, List.all_cons, Bool.and_eq_true_iff] at hx
    have hc : (c == tickChar) = false := by
      cases heq : c == tickChar
      · rfl
      · rw [heq] at hx; simp at hx
    rw [List.cons_append,
      removeSqlFence_cons_keep (tick_head_not_prefix_tag hc _),
      ih (by rw [noTick]; exact hx.2), List.cons_append]

theorem allWs_of_dropWhile_eq_nil {xs : List Char}
    (h : xs.dropWhile Char.isWhitespace = []) :
    xs.all Char.isWhitespace = true := by
  rw [List.all_eq_true]
  intro c hc
  have hsplit := List.takeWhile_append_dropWhile
    (p := Char.isWhitespace) (l := xs)
  rw [← hsplit] at hc
  rcases List.mem_append.mp hc with hc | hc
  · exact List.mem_takeWhile_imp hc
  · rw [h] at hc
    cases hc

theorem removeSqlFence_tag (r : List Char) :
    removeSqlFence ("```sql".toList ++ r) =
      removeSqlFence (r.dropWhile Char.isWhitespace) := by
  have e : "```sql".toList ++ r =
      tickChar :: ("``sql".toList ++ r) := rfl
  rw [e, removeSqlFence_cons, if_pos]
  · have e2 : ((tickChar :: ("``sql".toList ++ r)).drop 6) = r := by
      show (("```sql".toList ++ r).drop 6) = r
      exact List.drop_left' rfl
    rw [e2]
  · show "```sql".toList.isPrefixOf ("```sql".toList ++ r) = true
    exact isPrefixOf_append_self _ _

theorem removeTicksWs_open (z : List Char) :
    removeTicksWs (tickChar :: tickChar :: tickChar :: z) = removeTicksWs z := by
  rw [removeTicksWs_cons, if_pos]
  · have e2 : ((tickChar :: tickChar :: tickChar :: z).dropWhile
        Char.isWhitespace).drop 3 = z := by
      rw [List.dropWhile_cons, if_neg (by decide)]
      show (("```".toList ++ z).drop 3) = z
      exact List.drop_left' rfl
    rw [e2]
  · rw [List.dropWhile_cons, if_neg (by decide)]
    show "```".toList.isPrefixOf ("```".toList ++ z) = true
    exact isPrefixOf_append_self _ _

/-- Scanning a backtick-free string followed by a newline-and-fence closer
removes the closer together with the trailing whitespace run, which is
exactly a trailing strip of the body. -/
theorem removeTicksWs_append_fence {x : List Char} (hx : noTick x = true) :
    removeTicksWs (x ++ ('\n' :: "```".toList)) = dropTrailWs x := by
  induction x with
  | nil =>
    show removeTicksWs ('\n' :: "```".toList) = []
    decide
  | cons c xs ih =>
    rw [noTick, List.all_cons, Bool.and_eq_true_iff] at hx
    obtain ⟨hc', hxs⟩ := hx
    have hc : (c == tickChar) = false := by
      cases heq : c == tickChar
      · rfl
      · rw [heq] at hc'; simp at hc'
    have ihx := ih (by rw [noTick]; exact hxs)
    by_cases hw : c.isWhitespace = true
    · by_cases hall : xs.all Char.isWhitespace = true
      · have hdw : ((c :: (xs ++ '\n' :: "```".toList)).dropWhile
            Char.isWhitespace) = "```".toList := by
          rw [List.dropWhile_cons, if_pos hw,
            List.dropWhile_append_of_pos (List.all_eq_true.mp hall),
            List.dropWhile_cons, if_pos (by decide)]
          decide
        rw [List.cons_append, removeTicksWs_cons, hdw, if_pos (by decide),
          show (("```".toList : List Char).drop 3) = [] from by decide,
          dropTrailWs_cons_nil ⟨dropTrailWs_eq_nil_of_all hall, hw⟩]
        rfl
      · have hne : xs.dropWhile Char.isWhitespace ≠ [] := by
          intro hcon
          exact hall (allWs_of_dropWhile_eq_nil hcon)
        obtain ⟨d, ds, hds⟩ : ∃ d ds,
            xs.dropWhile Char.isWhitespace = d :: ds := by
          cases hcase : xs.dropWhile Char.isWhitespace with
          | nil => exact absurd hcase hne
          | cons d ds => exact ⟨d, ds, rfl⟩
        have hdmem : d ∈ xs := by
          have hsub := List.dropWhile_sublist (l := xs) Char.isWhitespace
          rw [hds] at hsub
          exact hsub.subset (List.mem_cons_self _ _)
        have hdt : (d == tickChar) = false := by
          have hmem := List.all_eq_true.mp hxs d hdmem
          cases heq : d == tickChar
          · rfl
          · rw [heq] at hmem; simp at hmem
        have hdw : ((c :: (xs ++ '\n' :: "```".toList)).dropWhile
            Char.isWhitespace) = d :: (ds ++ '\n' :: "```".toList) := by
          rw [List.dropWhile_cons, if_pos hw, List.dropWhile_append,
            if_neg (by rw [hds]; simp), hds, List.cons_append]
        rw [List.cons_append, removeTicksWs_cons, hdw,
          if_neg (by rw [tick_head_not_prefix_fence hdt]; simp), ihx,
          dropTrailWs_cons_keep (by
            rintro ⟨h1, _⟩
            exact dropTrailWs_ne_nil_of_not_all hall h1)]
    · have hdw : ((c :: (xs ++ '\n' :: "```".toList)).dropWhile
          Char.isWhitespace) = c :: (xs ++ '\n' :: "```".toList) := by
        rw [List.dropWhile_cons, if_neg hw]
      rw [List.cons_append, removeTicksWs_cons, hdw,
        if_neg (by rw [tick_head_not_prefix_fence hc]; simp), ihx,
        dropTrailWs_cons_keep (by
          rintro ⟨_, hcon⟩
          exact hw hcon)]


/-- C7 (amended): the cleaner strips triple-backtick fences whose language
tag is exactly `sql` or absent: for every backtick-free body with no leading
or trailing whitespace, cleaning the fenced body yields the
whitespace-collapsed body (for other language tags only the backticks and
adjacent whitespace are removed and the tag text survives, as the
counterexample shows). The concrete spec example holds, and every cleaned
output has single-space whitespace runs and no leading or trailing
whitespace. -/
theorem c7_clean_fenced :
    (∀ b : List Char, noTick b = true → stripChars b = b →
      cleanSqlOutput ("```sql".toList ++ '\n' :: (b ++ '\n' :: "```".toList)) =
        stripChars (collapseWs b) ∧
      cleanSqlOutput ("```".toList ++ '\n' :: (b ++ '\n' :: "```".toList)) =
        stripChars (collapseWs b)) ∧
    cleanSqlOutput "```sql\nSELECT * FROM inventory_logs\n```".toList =
      "SELECT * FROM inventory_logs".toList ∧
    (∀ s : List Char, wsOnlySpace (cleanSqlOutput s) = true ∧
      noAdjWs (cleanSqlOutput s) = true ∧
      headIsWs (cleanSqlOutput s) = false ∧
      lastIsWs (cleanSqlOutput s) = false) := by
  refine ⟨?_, by decide, ?_⟩
  · intro b hnt hstrip
    by_cases hb0 : b = []
    · subst hb0
      exact ⟨by decide, by decide⟩
    · have hhead : headIsWs b = false := by
        have h := dropTrailWs_headIsWs (headIsWs_dropWhile b)
        rw [show dropTrailWs (b.dropWhile Char.isWhitespace) = stripChars b
          from rfl, hstrip] at h
        exact h
      have hdwb : b.dropWhile Char.isWhitespace = b :=
        dropWhile_eq_self_of_head hhead
      have hdtb : dropTrailWs b = b := by
        have h2 := hstrip
        unfold stripChars at h2
        rw [hdwb] at h2
        exact h2
      constructor
      · have h1 : removeSqlFence
            ("```sql".toList ++ '\n' :: (b ++ '\n' :: "```".toList)) =
            b ++ '\n' :: "```".toList := by
          rw [removeSqlFence_tag]
          have hdw2 : (('\n' :: (b ++ '\n' :: "```".toList)).dropWhile
              Char.isWhitespace) = b ++ '\n' :: "```".toList := by
            rw [List.dropWhile_cons, if_pos (by decide), List.dropWhile_append,
              if_neg (by rw [hdwb]; simp [List.isEmpty_iff, hb0]), hdwb]
          rw [hdw2, removeSqlFence_append_noTick _ hnt,
            show removeSqlFence ('\n' :: "```".toList) =
              '\n' :: "```".toList from by decide]
        show stripChars (collapseWs (removeTicksWs (removeSqlFence _))) = _
        rw [h1, removeTicksWs_append_fence hnt, hdtb]
      · have h1 : removeSqlFence
            ("```".toList ++ '\n' :: (b ++ '\n' :: "```".toList)) =
            "```".toList ++ '\n' :: (b ++ '\n' :: "```".toList) := by
          show removeSqlFence (tickChar :: tickChar :: tickChar ::
            '\n' :: (b ++ '\n' :: "```".toList)) = _
          rw [removeSqlFence_cons_keep (tag_not_prefix_open1 _),
            removeSqlFence_cons_keep (tag_not_prefix_open2 _),
            removeSqlFence_cons_keep (tag_not_prefix_open3 _),
            removeSqlFence_cons_keep (tag_not_prefix_open4 _),
            removeSqlFence_append_noTick _ hnt,
            show removeSqlFence ('\n' :: "```".toList) =
              '\n' :: "```".toList from by decide,
            show ("```".toList : List Char) =
              tickChar :: tickChar :: tickChar :: [] from by decide]
          rfl
        show stripChars (collapseWs (removeTicksWs (removeSqlFence _))) = _
        rw [h1,
          show ("```".toList ++ '\n' :: (b ++ '\n' :: "```".toList)) =
            tickChar :: tickChar :: tickChar ::
              ('\n' :: (b ++ '\n' :: "```".toList)) from rfl,
          removeTicksWs_open,
          show ('\n' :: (b ++ '\n' :: "```".toList)) =
            (('\n' :: b) ++ '\n' :: "```".toList) from rfl,
          removeTicksWs_append_fence (show noTick ('\n' :: b) = true from by
            rw [noTick, List.all_cons, Bool.and_eq_true_iff]
            exact ⟨by decide, hnt⟩),
          dropTrailWs_cons_keep (by
            rintro ⟨h1', _⟩
            rw [hdtb] at h1'
            exact hb0 h1'), hdtb]
        obtain ⟨c0, bs, rfl⟩ : ∃ c0 bs, b = c0 :: bs := by
          cases hcase : b with
          | nil => exact absurd hcase hb0
          | cons c0 bs => exact ⟨c0, bs, rfl⟩
        have hc0 : ¬ c0.isWhitespace = true := by
          rw [show headIsWs (c0 :: bs) = c0.isWhitespace from rfl] at hhead
          rw [hhead]
          simp
        rw [collapseWs_cons2, if_pos (by decide), if_neg hc0]
        unfold stripChars
        rw [List.dropWhile_cons, if_pos (by decide)]
  · intro s
    refine ⟨?_, ?_, ?_, ?_⟩
    · show wsOnlySpace (dropTrailWs ((collapseWs
        (removeTicksWs (removeSqlFence s))).dropWhile Char.isWhitespace)) = true
      exact all_dropTrailWs _ (all_dropWhile _ _ (collapseWs_wsOnly _))
    · show noAdjWs (dropTrailWs ((collapseWs
        (removeTicksWs (removeSqlFence s))).dropWhile Char.isWhitespace)) = true
      exact dropTrailWs_noAdj (noAdjWs_dropWhile (collapseWs_noAdj _))
    · show headIsWs (dropTrailWs ((collapseWs
        (removeTicksWs (removeSqlFence s))).dropWhile Char.isWhitespace)) = false
      exact dropTrailWs_headIsWs (headIsWs_dropWhile _)
    · show lastIsWs (dropTrailWs ((collapseWs
        (removeTicksWs (removeSqlFence s))).dropWhile Char.isWhitespace)) = false
      exact lastIsWs_dropTrailWs _

/-- Witness for C7: the amended fence theorem at the concrete body
SELECT 1. -/
theorem c7_witness :
    (noTick "SELECT 1".toList = true ∧
      stripChars "SELECT 1".toList = "SELECT 1".toList) ∧
    (cleanSqlOutput
        ("```sql".toList ++ '\n' :: ("SELECT 1".toList ++ '\n' :: "```".toList)) =
        stripChars (collapseWs "SELECT 1".toList) ∧
      cleanSqlOutput
        ("```".toList ++ '\n' :: ("SELECT 1".toList ++ '\n' :: "```".toList)) =
        stripChars (collapseWs "SELECT 1".toList)) :=
  ⟨⟨by decide, by decide⟩,
    c7_clean_fenced.1 "SELECT 1".toList (by decide) (by decide)⟩

end RagEval
